import Mathlib

/-!
Verification of the matching core of the poly-arb repository.

The repository links prediction-market events and contracts across two
platforms (Kalshi / Polymarket).  This file gives a shallow embedding of the
matching core:

* `src/matching/markets.py` — score consolidation (`load_event_matches`),
  the mutual-best-match filter (`mutual_best_match`, `_market_mutual_best`),
  blank-fill extraction (`_extract_blank`) and market-level matching
  (`match_markets_in_pair`);
* `src/matching/utils.py` — blocking (`_years_overlap`, `get_candidate_pairs`);
* `src/kalshi/process.py` / `src/polymarket/process.py` — template
  generalisation (`generalize_strings`, `_common_prefix_len`,
  `_common_suffix_len`).

Modelling conventions:

* Python `str` is modelled as `List Char` (`PyStr`); `str.strip`, `str.split`,
  `" ".join`, slicing, `startswith` / `endswith` are modelled by explicit
  executable functions on `List Char` below.
* Python `float` scores are modelled as `ℚ`.
* A `pandas.DataFrame` is modelled as a `List` of records in row order;
  `groupby(k)[c].idxmax()` picks, for every distinct key, the first row of the
  group attaining the maximal score, which is modelled by `firstMax` on the
  filtered row list.  `set(...)` membership tests are modelled by list
  membership (only membership is ever used).
* `round(x, 2)` / `round(x, 4)` display rounding of scores is omitted: scores
  are exact rationals here, and no claim below depends on the rounding.
-/

/-- Python strings are modelled as lists of characters. -/
abbrev PyStr := List Char

/- ═════════════════════════════════════════════════════════════════════════
   Generic mutual-best machinery (models the pandas idiom
   `df.groupby(key)[score].idxmax()` + pair-set intersection used by both
   `mutual_best_match` and `_market_mutual_best` in src/matching/markets.py).
   ═════════════════════════════════════════════════════════════════════════ -/

/-- First element of the list attaining the maximal score: models
`Series.idxmax`, which returns the (row label of the) first occurrence of the
maximum within a group. -/
def firstMax {α : Type} (sc : α → ℚ) : List α → Option α
  | [] => none
  | a :: as =>
    match firstMax sc as with
    | none => some a
    | some b => if sc b ≤ sc a then some a else some b

/-- The rows selected by `df.groupby(key)[score].idxmax()`: one representative
row per distinct key, namely the first row of that key's group attaining the
group maximum. -/
def groupBest {α K : Type} [DecidableEq α] [DecidableEq K]
    (key : α → K) (sc : α → ℚ) (l : List α) : List α :=
  ((l.map key).dedup).filterMap fun k => firstMax sc (l.filter fun z => decide (key z = k))

/-- The shared mutual-best filter: keep a row iff its (A-key, B-key) pair is
simultaneously in the set of per-A-key best pairs and in the set of per-B-key
best pairs.  Models the `k_pairs & p_pairs` intersection plus the row mask in
`mutual_best_match` / `_market_mutual_best` (src/matching/markets.py:85-112,
151-174). -/
def mutualBestBy {α K P : Type} [DecidableEq α] [DecidableEq K] [DecidableEq P]
    (ka : α → K) (pb : α → P) (sc : α → ℚ) (l : List α) : List α :=
  let k_pairs := (groupBest ka sc l).map fun z => (ka z, pb z)
  let p_pairs := (groupBest pb sc l).map fun z => (ka z, pb z)
  l.filter fun x => decide ((ka x, pb x) ∈ k_pairs ∧ (ka x, pb x) ∈ p_pairs)

/- ═════════════════════════════════════════════════════════════════════════
   Event-level scored pairs and consolidation (src/matching/markets.py:37-112)
   ═════════════════════════════════════════════════════════════════════════ -/

/-- One row of an event-level match file: columns
`kalshi_event, poly_event, score`. -/
structure ScoredPair where
  kalshi_event : String
  poly_event : String
  score : ℚ
  deriving DecidableEq

/-- `FUZZY_SCALE = 100` (src/matching/markets.py:40). -/
def FUZZY_SCALE : ℚ := 100

/-- `MIN_EVENT_SCORE = 0.70` (src/matching/markets.py:41).  Written as a raw
rational (7/10 in lowest terms) so that it evaluates by kernel reduction. -/
def MIN_EVENT_SCORE : ℚ := ⟨7, 10, by norm_num, by norm_num⟩

/-- Stable insertion into a descending-sorted list (helper for `sortDescBy`). -/
def insertDescBy {α : Type} (sc : α → ℚ) (x : α) : List α → List α
  | [] => [x]
  | y :: ys => if sc x < sc y then y :: insertDescBy sc x ys else x :: y :: ys

/-- `df.sort_values(score, ascending=False)`, modelled as a stable descending
insertion sort.  (pandas' default quicksort fixes some tie order; every
property proved below depends only on the multiset of rows and on
descending sortedness, both shared by all tie orders.) -/
def sortDescBy {α : Type} (sc : α → ℚ) (l : List α) : List α :=
  l.foldr (insertDescBy sc) []

/-- Key of an event-level scored pair: the `["kalshi_event", "poly_event"]`
column pair used by `drop_duplicates` and by the mutual-best pair sets. -/
def keyOf (r : ScoredPair) : String × String := (r.kalshi_event, r.poly_event)

/-- `drop_duplicates(["kalshi_event", "poly_event"], keep="first")`: scan the
rows in order and keep each key's first occurrence; `seen` is the set of keys
already emitted. -/
def dedupByKey : List ScoredPair → List (String × String) → List ScoredPair
  | [], _ => []
  | r :: rs, seen =>
    if keyOf r ∈ seen then dedupByKey rs seen
    else r :: dedupByKey rs (keyOf r :: seen)

/-- `"fuzzy" in name` for the file names of `MATCH_FILES`: substring test. -/
def strHasSub (pat l : List Char) : Bool :=
  (List.range (l.length + 1)).any fun i => pat.isPrefixOf (l.drop i)

/-- `df["score"] = df["score"] / FUZZY_SCALE` applied to a whole match file
(src/matching/markets.py:60-61). -/
def scaleFuzzy (rows : List ScoredPair) : List ScoredPair :=
  rows.map fun r => { r with score := r.score / FUZZY_SCALE }

/-- The per-scorer frames assembled by `load_event_matches`: the four files of
`MATCH_FILES` in order (`semantic_title, semantic_full, fuzzy_title,
fuzzy_full`); `none` models a missing file (skipped); a file whose name
contains `"fuzzy"` has its scores divided by `FUZZY_SCALE`. -/
def framesOf (st sf ft ff : Option (List ScoredPair)) : List (List ScoredPair) :=
  [("semantic_title", st), ("semantic_full", sf), ("fuzzy_title", ft), ("fuzzy_full", ff)].filterMap
    fun nr => nr.2.map fun rows =>
      if strHasSub "fuzzy".toList nr.1.toList then scaleFuzzy rows else rows

/-- `pd.concat(frames)`. -/
def combinedOf (st sf ft ff : Option (List ScoredPair)) : List ScoredPair :=
  (framesOf st sf ft ff).flatMap id

/-- `load_event_matches` (src/matching/markets.py:51-78): normalise the four
match files to a 0-1 scale, concatenate, sort by score descending, keep the
first (best) row per event pair, and drop rows below `MIN_EVENT_SCORE`.
`none` models the `FileNotFoundError` raised when every file is missing. -/
def load_event_matches (st sf ft ff : Option (List ScoredPair)) :
    Option (List ScoredPair) :=
  let frames := framesOf st sf ft ff
  if frames.isEmpty then none
  else
    let best := dedupByKey (sortDescBy (·.score) (combinedOf st sf ft ff)) []
    some (best.filter fun r => decide (MIN_EVENT_SCORE ≤ r.score))

/-- `mutual_best_match` (src/matching/markets.py:85-112): keep only pairs that
are the best for both their Kalshi event and their Polymarket event, then sort
the survivors by score descending. -/
def mutual_best_match (df : List ScoredPair) : List ScoredPair :=
  sortDescBy (·.score)
    (mutualBestBy (·.kalshi_event) (·.poly_event) (·.score) df)

/- ═════════════════════════════════════════════════════════════════════════
   Blocking (src/matching/utils.py:231-299)
   ═════════════════════════════════════════════════════════════════════════ -/

/-- One event row as consumed by `get_candidate_pairs`: its extracted person
set and year set (Python `set`s, modelled as lists; only emptiness and
membership are ever used). -/
structure Event where
  persons : List String
  years : List Int
  deriving DecidableEq

/-- Default used to read an event list at an index (indices emitted by
`get_candidate_pairs` are always in range). -/
def defaultEvent : Event := ⟨[], []⟩

/-- `_years_overlap` (src/matching/utils.py:231-240): true iff some year from
one side and some year from the other differ by at most 1. -/
def years_overlap (years_a years_b : List Int) : Bool :=
  years_a.any fun ya => years_b.any fun yb => (ya - yb).natAbs ≤ 1

/-- Membership of a poly event in the union of inverted-index lookups
`⋃ p ∈ k_persons, poly_person_idx[p]`: the two person sets share a name. -/
def sharesPerson (a b : List String) : Bool :=
  a.any fun x => decide (x ∈ b)

/-- `get_candidate_pairs` (src/matching/utils.py:243-299).  Person blocking:
a Kalshi event with persons is paired with the poly events found in the
person-inverted index under any of its persons (= the poly events sharing at
least one person); a Kalshi event without persons is paired only with poly
events without persons.  Year post-filter: a surviving pair in which both
sides have years must satisfy `_years_overlap`.  Python iterates the
candidate *set* in unspecified order; the pairs are produced here in index
order, and only membership is stated about the result. -/
def get_candidate_pairs (kalshi_events poly_events : List Event) :
    List (Nat × Nat) :=
  (List.range kalshi_events.length).flatMap fun ki =>
    let ke := kalshi_events.getD ki defaultEvent
    let candidates := (List.range poly_events.length).filter fun pi =>
      let pe := poly_events.getD pi defaultEvent
      if ke.persons.isEmpty then pe.persons.isEmpty
      else sharesPerson ke.persons pe.persons
    candidates.filterMap fun pi =>
      let pe := poly_events.getD pi defaultEvent
      if ke.years ≠ [] ∧ pe.years ≠ [] ∧ ¬ years_overlap ke.years pe.years
      then none else some (ki, pi)

/- ═════════════════════════════════════════════════════════════════════════
   Python string primitives on `PyStr`
   ═════════════════════════════════════════════════════════════════════════ -/

/-- `str.rstrip()`: drop trailing whitespace. -/
def pyRStrip (l : PyStr) : PyStr :=
  (l.reverse.dropWhile Char.isWhitespace).reverse

/-- `str.strip()`: drop leading and trailing whitespace. -/
def pyStrip (l : PyStr) : PyStr :=
  (pyRStrip l).dropWhile Char.isWhitespace

/-- Truthiness test used all over the Python code: a string is "non-blank"
when it is non-empty after stripping (`if s.strip()`). -/
def isNonBlank (s : PyStr) : Bool := !(pyStrip s).isEmpty

/-- Worker for `str.split()` (whitespace split, empty pieces dropped):
`acc` holds the characters of the word being read, in reverse. -/
def splitWordsAux : List Char → List Char → List PyStr
  | [], acc => if acc.isEmpty then [] else [acc.reverse]
  | c :: cs, acc =>
    if c.isWhitespace then
      if acc.isEmpty then splitWordsAux cs [] else acc.reverse :: splitWordsAux cs []
    else splitWordsAux cs (c :: acc)

/-- `str.split()`: split on whitespace runs, dropping empty pieces. -/
def pySplitWords (s : PyStr) : List PyStr := splitWordsAux s []

/-- `" ".join(parts)`. -/
def joinWords : List PyStr → PyStr
  | [] => []
  | [w] => w
  | w :: v :: ws => w ++ ' ' :: joinWords (v :: ws)

/-- The reserved wildcard marker `"[blank]"`. -/
def blankTok : PyStr := ['[', 'b', 'l', 'a', 'n', 'k', ']']

/-- `template.split(pat, 1)` when `pat` occurs, and the `pat in s` test:
the index of the first occurrence of `pat`, with the pieces before and after
it; `none` when `pat` does not occur. -/
def splitFirst (pat l : PyStr) : Option (PyStr × PyStr) :=
  ((List.range (l.length + 1)).find? fun i => pat.isPrefixOf (l.drop i)).map
    fun i => (l.take i, l.drop (i + pat.length))

/-- `pat in s` (Python substring test). -/
def containsTok (pat l : PyStr) : Bool := (splitFirst pat l).isSome

/- ═════════════════════════════════════════════════════════════════════════
   Template generalisation (src/kalshi/process.py:16-73; the Polymarket copy
   src/polymarket/process.py:23-73 is identical up to statement order)
   ═════════════════════════════════════════════════════════════════════════ -/

/-- `min(len(w) for w in word_lists)` for a non-empty list of word lists. -/
def minWordLen (wls : List (List PyStr)) : Nat :=
  match wls.map List.length with
  | [] => 0
  | x :: xs => xs.foldl min x

/-- All elements of the list are equal (Python `len({...}) == 1` for a
non-empty collection). -/
def allEq (l : List PyStr) : Bool :=
  match l with
  | [] => true
  | x :: xs => xs.all fun y => decide (y = x)

/-- `_common_prefix_len` (src/kalshi/process.py:16-24): the number of leading
words common to every list — the first position `i < min_len` at which the
lists disagree, or `min_len` when there is none. -/
def common_prefix_len (word_lists : List (List PyStr)) : Nat :=
  let min_len := minWordLen word_lists
  (((List.range min_len).find? fun i =>
      !(allEq (word_lists.map fun wl => wl.getD i []))).getD min_len)

/-- `_common_suffix_len` (src/kalshi/process.py:27-35): the number of trailing
words common to every list — Python returns `i - 1` for the first
`i ∈ [1, min_len]` at which the lists disagree at position `-i`, i.e. the
first `j` (0-based) disagreeing at position `-(j+1)`, or `min_len`. -/
def common_suffix_len (word_lists : List (List PyStr)) : Nat :=
  let min_len := minWordLen word_lists
  (((List.range min_len).find? fun j =>
      !(allEq (word_lists.map fun wl => wl.getD (wl.length - (j + 1)) []))).getD min_len)

/-- `generalize_strings` (src/kalshi/process.py:38-73 and, identically up to
the order of two statements, src/polymarket/process.py:41-73): keep the
longest common word prefix and suffix of the non-blank inputs and replace the
variable middle with a single `[blank]`; one non-blank input or all-identical
non-blank inputs are returned unchanged; no non-blank input yields `""`. -/
def generalize_strings (strings : List PyStr) : PyStr :=
  match strings.filter isNonBlank with
  | [] => []
  | [s] => s
  | s :: t :: rest =>
    let non_empty := s :: t :: rest
    let word_lists := non_empty.map pySplitWords
    if (t :: rest).all (fun y => decide (y = s)) then s
    else
      let prefix_len := common_prefix_len word_lists
      let suffix_len := common_suffix_len word_lists
      let wl0 := pySplitWords s
      let prefix_words := wl0.take prefix_len
      let suffix_words := if 0 < suffix_len then wl0.drop (wl0.length - suffix_len) else []
      joinWords
        ((if prefix_words.isEmpty then [] else [joinWords prefix_words]) ++
          [blankTok] ++
          (if suffix_words.isEmpty then [] else [joinWords suffix_words]))

/- ═════════════════════════════════════════════════════════════════════════
   Blank-fill extraction and market-level matching
   (src/matching/markets.py:119-241)
   ═════════════════════════════════════════════════════════════════════════ -/

/-- `_extract_blank` (src/matching/markets.py:119-148): split the template
around the first `[blank]`; fail (`none`) when the marker is absent, when a
non-empty prefix does not start the title, or when the extracted fill strips
to the empty string.  When the stripped suffix is non-empty but the
right-stripped remainder does not end with it, the whole remainder is kept
(the `elif not suffix_s` and final `else` branches of the Python code both
yield `rest`). -/
def extract_blank (template title : PyStr) : Option PyStr :=
  match splitFirst blankTok template with
  | none => none
  | some (pre, suf) =>
    if !pre.isEmpty ∧ ¬ pre.isPrefixOf title then none
    else
      let rest := title.drop pre.length
      let suffix_s := pyStrip suf
      let rest_s := pyRStrip rest
      let blank :=
        if !suffix_s.isEmpty ∧ suffix_s.isSuffixOf rest_s then
          rest_s.take (rest_s.length - suffix_s.length)
        else rest
      let b := pyStrip blank
      if b.isEmpty then none else some b

/-- `BLANK_MATCH_THRESHOLD = 85` (src/matching/markets.py:43). -/
def BLANK_MATCH_THRESHOLD : ℚ := 85

/-- `TITLE_MATCH_THRESHOLD = 90` (src/matching/markets.py:44). -/
def TITLE_MATCH_THRESHOLD : ℚ := 90

/-- One market row of a cleaned per-platform CSV, as consumed by
`match_markets_in_pair`: `ticker`, `title`, `result` and the event-level
generalised `event_title` (shared by all rows of the event). -/
structure MarketRow where
  ticker : String
  title : PyStr
  result : String
  event_title : PyStr
  deriving DecidableEq

/-- Default market row (the event tables handed to `match_markets_in_pair`
are non-empty; `main` skips empty ones). -/
def defaultMarketRow : MarketRow := ⟨"", [], "", []⟩

/-- The per-market work items built by `match_markets_in_pair`: ticker,
title, result and the pre-extracted blank (`none` outside blank mode or when
extraction failed). -/
structure MarketItem where
  ticker : String
  title : PyStr
  result : String
  blank : Option PyStr
  deriving DecidableEq

/-- One row of `matched_markets.csv` (a candidate market pair at or above
threshold).  `kalshi_blank` / `poly_blank` carry `""` outside blank mode
(`ki["blank"] or ""`). -/
structure MarketPair where
  kalshi_event : String
  poly_event : String
  event_score : ℚ
  kalshi_ticker : String
  poly_ticker : String
  kalshi_title : PyStr
  poly_title : PyStr
  kalshi_blank : PyStr
  poly_blank : PyStr
  kalshi_result : String
  poly_result : String
  market_score : ℚ
  deriving DecidableEq

/-- `_market_mutual_best` (src/matching/markets.py:151-174): the shared
mutual-best filter keyed on `kalshi_ticker` / `poly_ticker` with score
`market_score` (on the empty list both the Python early return and the filter
yield `[]`). -/
def market_mutual_best (candidates : List MarketPair) : List MarketPair :=
  mutualBestBy (·.kalshi_ticker) (·.poly_ticker) (·.market_score) candidates

/-- `match_markets_in_pair` (src/matching/markets.py:177-241).  The lexical
similarity primitive `fuzz.token_sort_ratio` is an external collaborator and
is passed in as `sim`.  Blank mode is active iff both event templates contain
`[blank]`; in blank mode a market whose extraction failed is skipped
(`continue`); pairs scoring at or above the active threshold become
candidates, which are then filtered by `_market_mutual_best`. -/
def match_markets_in_pair (k_event p_event : String) (event_score : ℚ)
    (k_markets p_markets : List MarketRow) (sim : PyStr → PyStr → ℚ) :
    List MarketPair :=
  let k_template := (k_markets.headD defaultMarketRow).event_title
  let p_template := (p_markets.headD defaultMarketRow).event_title
  let use_blank := containsTok blankTok k_template && containsTok blankTok p_template
  let threshold := if use_blank then BLANK_MATCH_THRESHOLD else TITLE_MATCH_THRESHOLD
  let k_items : List MarketItem := k_markets.map fun r =>
    ⟨r.ticker, r.title, r.result, if use_blank then extract_blank k_template r.title else none⟩
  let p_items : List MarketItem := p_markets.map fun r =>
    ⟨r.ticker, r.title, r.result, if use_blank then extract_blank p_template r.title else none⟩
  let candidates := k_items.flatMap fun ki =>
    p_items.filterMap fun pi =>
      let score? : Option ℚ :=
        if use_blank then
          match ki.blank, pi.blank with
          | some b1, some b2 => some (sim b1 b2)
          | _, _ => none
        else some (sim ki.title pi.title)
      match score? with
      | none => none
      | some score =>
        if threshold ≤ score then
          some ⟨k_event, p_event, event_score, ki.ticker, pi.ticker, ki.title, pi.title,
            ki.blank.getD [], pi.blank.getD [], ki.result, pi.result, score⟩
        else none
  market_mutual_best candidates

/-- The multiset of (normalised) scores carried by a given
(kalshi_event, poly_event) pair in a row list. -/
def keyScores (l : List ScoredPair) (k p : String) : List ℚ :=
  (l.filter fun r => decide (r.kalshi_event = k ∧ r.poly_event = p)).map (·.score)

/-- Shorthand turning a Lean string literal into its `PyStr` model. -/
def toL (s : String) : PyStr := s.toList

/-- Number of occurrences of a (non-empty) pattern in a string: the number of
positions at which the pattern starts.  (`"[blank]"` cannot overlap itself, so
this also counts non-overlapping occurrences.) -/
def occCount (pat l : PyStr) : Nat :=
  ((List.range l.length).filter fun i => pat.isPrefixOf (l.drop i)).length

/-- Concrete Kalshi market table used by the C9 witness. -/
def wKMarkets : List MarketRow := [⟨"K1", toL "q x", "yes", toL "q [blank]"⟩]

/-- Concrete Polymarket market table used by the C9 witness. -/
def wPMarkets : List MarketRow := [⟨"P1", toL "q x", "yes", toL "q [blank]"⟩]

/-- Concrete similarity function used by the C9 witness (a stand-in for the
pluggable `token_sort_ratio` collaborator). -/
def wSim : PyStr → PyStr → ℚ := fun a b => if a = b then 100 else 0

/-- The market pair produced on the C9 witness inputs. -/
def wPair : MarketPair :=
  ⟨"KE", "PE", 1, "K1", "P1", toL "q x", toL "q x", toL "x", toL "x",
    "yes", "yes", 100⟩

/- ═════════════════════════════════════════════════════════════════════════
   Lemmas: firstMax / groupBest / mutualBestBy
   ═════════════════════════════════════════════════════════════════════════ -/

theorem firstMax_eq_none {α : Type} {sc : α → ℚ} {l : List α} :
    firstMax sc l = none ↔ l = [] := by
  cases l with
  | nil => simp [firstMax]
  | cons a as =>
    simp only [firstMax]
    cases h : firstMax sc as with
    | none => simp
    | some b => by_cases hle : sc b ≤ sc a <;> simp [hle]

theorem firstMax_mem {α : Type} {sc : α → ℚ} {l : List α} {x : α}
    (h : firstMax sc l = some x) : x ∈ l := by
  induction l with
  | nil => simp [firstMax] at h
  | cons a as ih =>
    simp only [firstMax] at h
    cases hm : firstMax sc as with
    | none => rw [hm] at h; simp at h; simp [h]
    | some b =>
      rw [hm] at h
      by_cases hle : sc b ≤ sc a
      · simp [hle] at h; simp [h]
      · simp [hle] at h
        subst h
        exact List.mem_cons_of_mem a (ih hm)

theorem firstMax_eq_some {α : Type} {sc : α → ℚ} {l : List α} {x : α}
    (h : firstMax sc l = some x) :
    ∃ A B, l = A ++ x :: B ∧ (∀ z ∈ A, sc z < sc x) ∧ (∀ z ∈ B, sc z ≤ sc x) := by
  induction l generalizing x with
  | nil => simp [firstMax] at h
  | cons a as ih =>
    simp only [firstMax] at h
    cases hm : firstMax sc as with
    | none =>
      rw [hm] at h
      simp only [Option.some.injEq] at h
      subst h
      rcases firstMax_eq_none.mp hm with rfl
      exact ⟨[], [], rfl, by simp, by simp⟩
    | some b =>
      rw [hm] at h
      rcases ih hm with ⟨A, B, hAB, hA, hB⟩
      by_cases hle : sc b ≤ sc a
      · simp only [if_pos hle, Option.some.injEq] at h
        subst h
        refine ⟨[], as, rfl, by simp, ?_⟩
        intro z hz
        rw [hAB] at hz
        rcases List.mem_append.mp hz with hz | hz
        · exact le_trans (hA z hz).le hle
        · rcases List.mem_cons.mp hz with rfl | hz
          · exact hle
          · exact le_trans (hB z hz) hle
      · simp only [if_neg hle, Option.some.injEq] at h
        subst h
        refine ⟨a :: A, B, by rw [hAB]; simp, ?_, hB⟩
        intro z hz
        rcases List.mem_cons.mp hz with rfl | hz
        · exact lt_of_not_ge hle
        · exact hA z hz

theorem firstMax_of_layout {α : Type} {sc : α → ℚ} {x : α} :
    ∀ (A B : List α), (∀ z ∈ A, sc z < sc x) → (∀ z ∈ B, sc z ≤ sc x) →
      firstMax sc (A ++ x :: B) = some x := by
  intro A
  induction A with
  | nil =>
    intro B _ hB
    simp only [List.nil_append, firstMax]
    cases hm : firstMax sc B with
    | none => rfl
    | some b => simp [hB b (firstMax_mem hm)]
  | cons a A' ih =>
    intro B hA hB
    have hin : firstMax sc (A' ++ x :: B) = some x :=
      ih B (fun z hz => hA z (List.mem_cons_of_mem a hz)) hB
    have ha : sc a < sc x := hA a (List.mem_cons_self a A')
    simp only [List.cons_append, firstMax, List.append_eq, hin]
    rw [if_neg (not_le.mpr ha)]

theorem groupBest_mem {α K : Type} [DecidableEq α] [DecidableEq K]
    {key : α → K} {sc : α → ℚ} {l : List α} {z : α} :
    z ∈ groupBest key sc l ↔
      firstMax sc (l.filter fun w => decide (key w = key z)) = some z := by
  constructor
  · intro hz
    rcases List.mem_filterMap.mp hz with ⟨k, _, hfm⟩
    have hzf := firstMax_mem hfm
    have : key z = k := by simpa using (List.mem_filter.mp hzf).2
    rwa [this]
  · intro hfm
    refine List.mem_filterMap.mpr ⟨key z, ?_, hfm⟩
    have hzf := firstMax_mem hfm
    have hzl : z ∈ l := (List.mem_filter.mp hzf).1
    exact List.mem_dedup.mpr (List.mem_map_of_mem key hzl)

theorem groupBest_unique {α K : Type} [DecidableEq α] [DecidableEq K]
    {key : α → K} {sc : α → ℚ} {l : List α} {z₁ z₂ : α}
    (h1 : z₁ ∈ groupBest key sc l) (h2 : z₂ ∈ groupBest key sc l)
    (hk : key z₁ = key z₂) : z₁ = z₂ := by
  rw [groupBest_mem] at h1 h2
  rw [hk] at h1
  have := h1.symm.trans h2
  simpa using this

theorem mutualBestBy_mem {α K P : Type} [DecidableEq α] [DecidableEq K] [DecidableEq P]
    {ka : α → K} {pb : α → P} {sc : α → ℚ} {l : List α} {x : α} :
    x ∈ mutualBestBy ka pb sc l ↔ x ∈ l ∧
      (ka x, pb x) ∈ (groupBest ka sc l).map (fun z => (ka z, pb z)) ∧
      (ka x, pb x) ∈ (groupBest pb sc l).map (fun z => (ka z, pb z)) := by
  simp [mutualBestBy, List.mem_filter, and_assoc]

theorem mutualBestBy_subset {α K P : Type} [DecidableEq α] [DecidableEq K] [DecidableEq P]
    {ka : α → K} {pb : α → P} {sc : α → ℚ} {l : List α} {x : α}
    (h : x ∈ mutualBestBy ka pb sc l) : x ∈ l :=
  (mutualBestBy_mem.mp h).1

theorem mutualBestBy_at_most_once {α K P : Type}
    [DecidableEq α] [DecidableEq K] [DecidableEq P]
    {ka : α → K} {pb : α → P} {sc : α → ℚ} {l : List α}
    (hnd : (l.map fun x => (ka x, pb x)).Nodup)
    {x y : α} (hx : x ∈ mutualBestBy ka pb sc l) (hy : y ∈ mutualBestBy ka pb sc l)
    (h : ka x = ka y ∨ pb x = pb y) : x = y := by
  rcases mutualBestBy_mem.mp hx with ⟨hxl, hxk, hxp⟩
  rcases mutualBestBy_mem.mp hy with ⟨hyl, hyk, hyp⟩
  have hinj := List.inj_on_of_nodup_map hnd
  rcases h with h | h
  · rcases List.mem_map.mp hxk with ⟨z₁, hz₁, he₁⟩
    rcases List.mem_map.mp hyk with ⟨z₂, hz₂, he₂⟩
    have hk₁ : ka z₁ = ka x := congrArg Prod.fst he₁
    have hk₂ : ka z₂ = ka y := congrArg Prod.fst he₂
    have : z₁ = z₂ := groupBest_unique hz₁ hz₂ (by rw [hk₁, hk₂, h])
    subst this
    exact hinj hxl hyl (he₁.symm.trans he₂)
  · rcases List.mem_map.mp hxp with ⟨z₁, hz₁, he₁⟩
    rcases List.mem_map.mp hyp with ⟨z₂, hz₂, he₂⟩
    have hp₁ : pb z₁ = pb x := congrArg Prod.snd he₁
    have hp₂ : pb z₂ = pb y := congrArg Prod.snd he₂
    have : z₁ = z₂ := groupBest_unique hz₁ hz₂ (by rw [hp₁, hp₂, h])
    subst this
    exact hinj hxl hyl (he₁.symm.trans he₂)

/- ═════════════════════════════════════════════════════════════════════════
   Lemmas: sortDescBy
   ═════════════════════════════════════════════════════════════════════════ -/

theorem insertDescBy_perm {α : Type} {sc : α → ℚ} {x : α} :
    ∀ {l : List α}, (insertDescBy sc x l).Perm (x :: l) := by
  intro l
  induction l with
  | nil => simp [insertDescBy]
  | cons y ys ih =>
    by_cases h : sc x < sc y
    · simp only [insertDescBy, if_pos h]
      exact (ih.cons y).trans (List.Perm.swap x y ys)
    · simp [insertDescBy, if_neg h]

theorem mem_sortDescBy {α : Type} {sc : α → ℚ} {l : List α} {x : α} :
    x ∈ sortDescBy sc l ↔ x ∈ l := by
  induction l with
  | nil => simp [sortDescBy]
  | cons a as ih =>
    have : sortDescBy sc (a :: as) = insertDescBy sc a (sortDescBy sc as) := rfl
    rw [this, insertDescBy_perm.mem_iff]
    simp [ih]

theorem insertDescBy_pairwise {α : Type} {sc : α → ℚ} {x : α} {l : List α}
    (h : l.Pairwise fun a b => sc b ≤ sc a) :
    (insertDescBy sc x l).Pairwise fun a b => sc b ≤ sc a := by
  induction l with
  | nil => simp [insertDescBy]
  | cons y ys ih =>
    rcases List.pairwise_cons.mp h with ⟨hy, hys⟩
    by_cases hlt : sc x < sc y
    · simp only [insertDescBy, if_pos hlt]
      refine List.pairwise_cons.mpr ⟨?_, ih hys⟩
      intro z hz
      rcases List.mem_cons.mp (insertDescBy_perm.mem_iff.mp hz) with rfl | hz
      · exact hlt.le
      · exact hy z hz
    · simp only [insertDescBy, if_neg hlt]
      refine List.pairwise_cons.mpr ⟨?_, h⟩
      intro z hz
      rcases List.mem_cons.mp hz with rfl | hz
      · exact not_lt.mp hlt
      · exact le_trans (hy z hz) (not_lt.mp hlt)

theorem sortDescBy_pairwise {α : Type} {sc : α → ℚ} (l : List α) :
    (sortDescBy sc l).Pairwise fun a b => sc b ≤ sc a := by
  induction l with
  | nil => simp [sortDescBy]
  | cons a as ih => exact insertDescBy_pairwise ih

theorem groupBest_subset {α K : Type} [DecidableEq α] [DecidableEq K]
    {key : α → K} {sc : α → ℚ} {l : List α} {z : α}
    (h : z ∈ groupBest key sc l) : z ∈ l :=
  (List.mem_filter.mp (firstMax_mem (groupBest_mem.mp h))).1

theorem mem_groupBest_of_pair {α K P : Type}
    [DecidableEq α] [DecidableEq K] [DecidableEq P]
    {ka : α → K} {pb : α → P} {key : α → Q} {sc : α → ℚ} {l : List α} {x : α}
    [DecidableEq Q]
    (hnd : (l.map fun z => (ka z, pb z)).Nodup) (hxl : x ∈ l)
    (hxk : (ka x, pb x) ∈ (groupBest key sc l).map fun z => (ka z, pb z)) :
    x ∈ groupBest key sc l := by
  rcases List.mem_map.mp hxk with ⟨z, hz, he⟩
  have hzl : z ∈ l := groupBest_subset hz
  have hzx : z = x := List.inj_on_of_nodup_map hnd hzl hxl he
  rwa [← hzx]

theorem groupBest_of_erase {α K : Type} [DecidableEq α] [DecidableEq K]
    {key : α → K} {sc : α → ℚ} {l : List α} {x y : α}
    (hx : x ∈ groupBest key sc l) (hxy : x ≠ y) (hnd : l.Nodup) :
    x ∈ groupBest key sc (l.erase y) := by
  rw [groupBest_mem] at hx ⊢
  rcases firstMax_eq_some hx with ⟨A, B, hab, hA, hB⟩
  rw [hnd.erase_eq_filter]
  have hcomm : (List.filter (fun z => z != y) l).filter (fun w => decide (key w = key x))
      = (l.filter fun w => decide (key w = key x)).filter fun z => z != y := by
    rw [List.filter_filter, List.filter_filter]
    exact List.filter_congr fun a _ => by rw [Bool.and_comm]
  rw [hcomm, hab, List.filter_append]
  have hxcons : (x :: B).filter (fun z => z != y) = x :: B.filter fun z => z != y := by
    simp [List.filter_cons, hxy]
  rw [hxcons]
  exact firstMax_of_layout _ _
    (fun z hz => hA z (List.mem_of_mem_filter hz))
    (fun z hz => hB z (List.mem_of_mem_filter hz))

theorem mutualBestBy_erase_preserves {α K P : Type}
    [DecidableEq α] [DecidableEq K] [DecidableEq P]
    {ka : α → K} {pb : α → P} {sc : α → ℚ} {l : List α}
    (hnd : (l.map fun z => (ka z, pb z)).Nodup)
    {x y : α} (hxy : x ≠ y) (hx : x ∈ mutualBestBy ka pb sc l) :
    x ∈ mutualBestBy ka pb sc (l.erase y) := by
  rcases mutualBestBy_mem.mp hx with ⟨hxl, hxk, hxp⟩
  have hndl : l.Nodup := hnd.of_map _
  have hgk : x ∈ groupBest ka sc l := mem_groupBest_of_pair hnd hxl hxk
  have hgp : x ∈ groupBest pb sc l := mem_groupBest_of_pair hnd hxl hxp
  refine mutualBestBy_mem.mpr ⟨(List.mem_erase_of_ne hxy).mpr hxl, ?_, ?_⟩
  · exact List.mem_map_of_mem _ (groupBest_of_erase hgk hxy hndl)
  · exact List.mem_map_of_mem _ (groupBest_of_erase hgp hxy hndl)

/- ═════════════════════════════════════════════════════════════════════════
   Claims C1 and C2
   ═════════════════════════════════════════════════════════════════════════ -/

/-- Claim C1: for every input set of scored pairs in which each
(kalshi, poly) key pair occurs exactly once, the output of the mutual-best
filter (`mutual_best_match` at event level, `_market_mutual_best` at market
level) is a partial matching: every kalshi key and every poly key appears in
at most one output pair (two output rows sharing either key coincide). -/
theorem mutual_best_at_most_once :
    (∀ df : List ScoredPair,
      (df.map fun r => (r.kalshi_event, r.poly_event)).Nodup →
      ∀ x ∈ mutual_best_match df, ∀ y ∈ mutual_best_match df,
        x.kalshi_event = y.kalshi_event ∨ x.poly_event = y.poly_event → x = y) ∧
    (∀ cs : List MarketPair,
      (cs.map fun c => (c.kalshi_ticker, c.poly_ticker)).Nodup →
      ∀ x ∈ market_mutual_best cs, ∀ y ∈ market_mutual_best cs,
        x.kalshi_ticker = y.kalshi_ticker ∨ x.poly_ticker = y.poly_ticker → x = y) := by
  constructor
  · intro df hnd x hx y hy h
    rw [mutual_best_match, mem_sortDescBy] at hx hy
    exact mutualBestBy_at_most_once hnd hx hy h
  · intro cs hnd x hx y hy h
    rw [market_mutual_best] at hx hy
    exact mutualBestBy_at_most_once hnd hx hy h

/-- Witness for C1 at a concrete input. -/
theorem mutual_best_at_most_once_witness :
    (([⟨"k1", "p1", 10⟩, ⟨"k2", "p2", 8⟩] : List ScoredPair).map
        fun r => (r.kalshi_event, r.poly_event)).Nodup ∧
    (⟨"k1", "p1", 10⟩ : ScoredPair) ∈
      mutual_best_match [⟨"k1", "p1", 10⟩, ⟨"k2", "p2", 8⟩] ∧
    (⟨"k1", "p1", 10⟩ : ScoredPair) = ⟨"k1", "p1", 10⟩ :=
  ⟨by decide, by decide,
    mutual_best_at_most_once.1 [⟨"k1", "p1", 10⟩, ⟨"k2", "p2", 8⟩] (by decide)
      ⟨"k1", "p1", 10⟩ (by decide) ⟨"k1", "p1", 10⟩ (by decide) (Or.inl rfl)⟩

/-- Counterexample for C2 as stated: in the input below the pair
`("k2","p1",9)` does not survive `mutual_best_match`, yet deleting it changes
the output — `("k2","p2",8)` becomes a survivor (deleting the loser unblocks
a new mutual-best pair), so the output is not unchanged. -/
theorem mutual_best_match_deletion_counterexample :
    (⟨"k2", "p1", 9⟩ : ScoredPair) ∈
      ([⟨"k1", "p1", 10⟩, ⟨"k2", "p1", 9⟩, ⟨"k2", "p2", 8⟩] : List ScoredPair) ∧
    (⟨"k2", "p1", 9⟩ : ScoredPair) ∉
      mutual_best_match [⟨"k1", "p1", 10⟩, ⟨"k2", "p1", 9⟩, ⟨"k2", "p2", 8⟩] ∧
    (([⟨"k1", "p1", 10⟩, ⟨"k2", "p1", 9⟩, ⟨"k2", "p2", 8⟩] : List ScoredPair).map
        fun r => (r.kalshi_event, r.poly_event)).Nodup ∧
    (⟨"k2", "p2", 8⟩ : ScoredPair) ∈
      mutual_best_match
        (([⟨"k1", "p1", 10⟩, ⟨"k2", "p1", 9⟩, ⟨"k2", "p2", 8⟩] :
          List ScoredPair).erase ⟨"k2", "p1", 9⟩) ∧
    (⟨"k2", "p2", 8⟩ : ScoredPair) ∉
      mutual_best_match [⟨"k1", "p1", 10⟩, ⟨"k2", "p1", 9⟩, ⟨"k2", "p2", 8⟩] := by
  decide

/-- Claim C2 (amended): deleting from the input a single pair that is not in
the mutual-best output never *removes* a pair from the output; every original
survivor still survives.  (The unamended claim — that the output is unchanged
— is false: deleting a loser can additionally unblock new mutual-best pairs,
see the counterexample.) -/
theorem mutual_best_match_deletion_preserves_survivors
    (df : List ScoredPair)
    (hnd : (df.map fun r => (r.kalshi_event, r.poly_event)).Nodup)
    (y : ScoredPair) (hy : y ∈ df) (hny : y ∉ mutual_best_match df)
    (x : ScoredPair) (hx : x ∈ mutual_best_match df) :
    x ∈ mutual_best_match (df.erase y) := by
  have hxy : x ≠ y := fun h => hny (h ▸ hx)
  rw [mutual_best_match, mem_sortDescBy] at hx ⊢
  exact mutualBestBy_erase_preserves hnd hxy hx

/-- Witness for the amended C2 at a concrete input. -/
theorem mutual_best_match_deletion_preserves_survivors_witness :
    (([⟨"k1", "p1", 10⟩, ⟨"k2", "p1", 9⟩, ⟨"k2", "p2", 8⟩] : List ScoredPair).map
        fun r => (r.kalshi_event, r.poly_event)).Nodup ∧
    (⟨"k1", "p1", 10⟩ : ScoredPair) ∈
      mutual_best_match
        (([⟨"k1", "p1", 10⟩, ⟨"k2", "p1", 9⟩, ⟨"k2", "p2", 8⟩] :
          List ScoredPair).erase ⟨"k2", "p1", 9⟩) :=
  ⟨by decide,
    mutual_best_match_deletion_preserves_survivors
      [⟨"k1", "p1", 10⟩, ⟨"k2", "p1", 9⟩, ⟨"k2", "p2", 8⟩] (by decide)
      ⟨"k2", "p1", 9⟩ (by decide) (by decide) ⟨"k1", "p1", 10⟩ (by decide)⟩

/- ═════════════════════════════════════════════════════════════════════════
   Claims C4 and C5 — blocking
   ═══════════════════════════════════════════════════════════════════════ -/

theorem get_candidate_pairs_mem {ks ps : List Event} {ki pi : Nat} :
    (ki, pi) ∈ get_candidate_pairs ks ps ↔
      ki < ks.length ∧ pi < ps.length ∧
      (if (ks.getD ki defaultEvent).persons.isEmpty
        then (ps.getD pi defaultEvent).persons.isEmpty
        else sharesPerson (ks.getD ki defaultEvent).persons
          (ps.getD pi defaultEvent).persons) = true ∧
      ¬((ks.getD ki defaultEvent).years ≠ [] ∧ (ps.getD pi defaultEvent).years ≠ [] ∧
        ¬ years_overlap (ks.getD ki defaultEvent).years
          (ps.getD pi defaultEvent).years = true) := by
  unfold get_candidate_pairs
  simp only [List.mem_flatMap, List.mem_filterMap, List.mem_filter, List.mem_range]
  constructor
  · rintro ⟨ki', hki', pi', ⟨⟨hpi', hperson⟩, hite⟩⟩
    by_cases hcond : (ks.getD ki' defaultEvent).years ≠ [] ∧
        (ps.getD pi' defaultEvent).years ≠ [] ∧
        ¬ years_overlap (ks.getD ki' defaultEvent).years
          (ps.getD pi' defaultEvent).years = true
    · rw [if_pos hcond] at hite
      exact absurd hite (by simp)
    · rw [if_neg hcond] at hite
      have h1 : ki' = ki := congrArg Prod.fst (Option.some.inj hite)
      have h2 : pi' = pi := congrArg Prod.snd (Option.some.inj hite)
      subst h1; subst h2
      exact ⟨hki', hpi', hperson, hcond⟩
  · rintro ⟨h1, h2, h3, h4⟩
    exact ⟨ki, h1, pi, ⟨⟨h2, h3⟩, by rw [if_neg h4]⟩⟩

/-- Claim C4: `get_candidate_pairs` never emits a pair whose two events have
disjoint non-empty person sets, and never emits a pair in which exactly one
side has persons: an emitted pair has either both person sets empty, or both
non-empty with a shared name. -/
theorem get_candidate_pairs_person_blocking
    (ks ps : List Event) (ki pi : Nat)
    (h : (ki, pi) ∈ get_candidate_pairs ks ps) :
    ((ks.getD ki defaultEvent).persons = [] ↔ (ps.getD pi defaultEvent).persons = []) ∧
    ((ks.getD ki defaultEvent).persons ≠ [] →
      ∃ nm, nm ∈ (ks.getD ki defaultEvent).persons ∧
        nm ∈ (ps.getD pi defaultEvent).persons) := by
  rcases get_candidate_pairs_mem.mp h with ⟨_, _, hperson, -⟩
  by_cases hk : (ks.getD ki defaultEvent).persons.isEmpty
  · rw [if_pos hk] at hperson
    have hk' : (ks.getD ki defaultEvent).persons = [] := by simpa using hk
    have hp' : (ps.getD pi defaultEvent).persons = [] := by simpa using hperson
    exact ⟨by rw [hk', hp'], fun hne => absurd hk' hne⟩
  · rw [if_neg hk] at hperson
    have hk' : (ks.getD ki defaultEvent).persons ≠ [] := by simpa using hk
    rcases List.any_eq_true.mp hperson with ⟨nm, hnm, hnmb⟩
    have hnmb' : nm ∈ (ps.getD pi defaultEvent).persons := of_decide_eq_true hnmb
    refine ⟨?_, fun _ => ⟨nm, hnm, hnmb'⟩⟩
    constructor
    · intro h0; exact absurd h0 hk'
    · intro h0; exact absurd (h0 ▸ hnmb') (List.not_mem_nil nm)

/-- Claim C5: for in-range indices, a pair is emitted by `get_candidate_pairs`
iff it passes person blocking and, whenever both sides have a non-empty year
set, some year of one side and some year of the other differ by at most 1;
a pair with either year set empty is kept (the year filter is skipped). -/
theorem get_candidate_pairs_iff
    (ks ps : List Event) (ki pi : Nat)
    (hki : ki < ks.length) (hpi : pi < ps.length) :
    (ki, pi) ∈ get_candidate_pairs ks ps ↔
      ((((ks.getD ki defaultEvent).persons = [] ∧
          (ps.getD pi defaultEvent).persons = []) ∨
        ((ks.getD ki defaultEvent).persons ≠ [] ∧
          sharesPerson (ks.getD ki defaultEvent).persons
            (ps.getD pi defaultEvent).persons = true)) ∧
       ((ks.getD ki defaultEvent).years ≠ [] → (ps.getD pi defaultEvent).years ≠ [] →
         ∃ ya ∈ (ks.getD ki defaultEvent).years,
           ∃ yb ∈ (ps.getD pi defaultEvent).years, (ya - yb).natAbs ≤ 1)) := by
  rw [get_candidate_pairs_mem]
  have hyd : years_overlap (ks.getD ki defaultEvent).years
      (ps.getD pi defaultEvent).years = true ↔
      ∃ ya ∈ (ks.getD ki defaultEvent).years,
        ∃ yb ∈ (ps.getD pi defaultEvent).years, (ya - yb).natAbs ≤ 1 := by
    simp [years_overlap, List.any_eq_true]
  constructor
  · rintro ⟨-, -, hperson, hyear⟩
    constructor
    · by_cases hk : (ks.getD ki defaultEvent).persons.isEmpty
      · rw [if_pos hk] at hperson
        exact Or.inl ⟨by simpa using hk, by simpa using hperson⟩
      · rw [if_neg hk] at hperson
        exact Or.inr ⟨by simpa using hk, hperson⟩
    · intro hky hpy
      rw [← hyd]
      by_contra hno
      exact hyear ⟨hky, hpy, fun ho => hno ho⟩
  · rintro ⟨hperson, hyear⟩
    refine ⟨hki, hpi, ?_, ?_⟩
    · rcases hperson with ⟨hk, hp⟩ | ⟨hk, hs⟩
      · rw [if_pos (by rw [hk]; rfl)]
        rw [hp]
        rfl
      · rw [if_neg (by simpa using hk)]
        exact hs
    · rintro ⟨hky, hpy, hno⟩
      exact hno (hyd.mpr (hyear hky hpy))

/-- Witness for C4 at a concrete input. -/
theorem get_candidate_pairs_person_blocking_witness :
    (0, 0) ∈ get_candidate_pairs [⟨["trump"], [2026]⟩] [⟨["trump"], [2025]⟩] ∧
    ((([⟨["trump"], [2026]⟩] : List Event).getD 0 defaultEvent).persons = [] ↔
      (([⟨["trump"], [2025]⟩] : List Event).getD 0 defaultEvent).persons = []) ∧
    ((([⟨["trump"], [2026]⟩] : List Event).getD 0 defaultEvent).persons ≠ [] →
      ∃ nm, nm ∈ (([⟨["trump"], [2026]⟩] : List Event).getD 0 defaultEvent).persons ∧
        nm ∈ (([⟨["trump"], [2025]⟩] : List Event).getD 0 defaultEvent).persons) :=
  ⟨by decide,
    get_candidate_pairs_person_blocking [⟨["trump"], [2026]⟩] [⟨["trump"], [2025]⟩]
      0 0 (by decide)⟩

/-- Witness for C5 at a concrete input (the spec's year scenario:
`{2026}` vs `{2025}` passes the ±1 window). -/
theorem get_candidate_pairs_iff_witness :
    (0 : Nat) < 1 ∧
    ((0, 0) ∈ get_candidate_pairs [⟨["trump"], [2026]⟩] [⟨["trump"], [2025]⟩] ↔
      ((((([⟨["trump"], [2026]⟩] : List Event).getD 0 defaultEvent).persons = [] ∧
          (([⟨["trump"], [2025]⟩] : List Event).getD 0 defaultEvent).persons = []) ∨
        ((([⟨["trump"], [2026]⟩] : List Event).getD 0 defaultEvent).persons ≠ [] ∧
          sharesPerson (([⟨["trump"], [2026]⟩] : List Event).getD 0 defaultEvent).persons
            (([⟨["trump"], [2025]⟩] : List Event).getD 0 defaultEvent).persons = true)) ∧
       ((([⟨["trump"], [2026]⟩] : List Event).getD 0 defaultEvent).years ≠ [] →
        (([⟨["trump"], [2025]⟩] : List Event).getD 0 defaultEvent).years ≠ [] →
         ∃ ya ∈ (([⟨["trump"], [2026]⟩] : List Event).getD 0 defaultEvent).years,
           ∃ yb ∈ (([⟨["trump"], [2025]⟩] : List Event).getD 0 defaultEvent).years,
             (ya - yb).natAbs ≤ 1))) :=
  ⟨by decide,
    get_candidate_pairs_iff [⟨["trump"], [2026]⟩] [⟨["trump"], [2025]⟩] 0 0
      (by decide) (by decide)⟩

/- ═════════════════════════════════════════════════════════════════════════
   Claim C3 — score consolidation
   ═══════════════════════════════════════════════════════════════════════ -/

theorem dedupByKey_subset : ∀ {l : List ScoredPair} {seen : List (String × String)},
    dedupByKey l seen ⊆ l := by
  intro l
  induction l with
  | nil => intro seen; simp [dedupByKey]
  | cons r rs ih =>
    intro seen
    by_cases h : keyOf r ∈ seen
    · rw [dedupByKey, if_pos h]
      exact (ih).trans (List.subset_cons_self r rs)
    · rw [dedupByKey, if_neg h]
      exact List.cons_subset_cons r ih

theorem dedupByKey_fresh : ∀ (l : List ScoredPair) (seen : List (String × String)),
    (∀ r ∈ dedupByKey l seen, keyOf r ∉ seen) ∧
      ((dedupByKey l seen).map keyOf).Nodup := by
  intro l
  induction l with
  | nil => intro seen; simp [dedupByKey]
  | cons r rs ih =>
    intro seen
    by_cases h : keyOf r ∈ seen
    · rw [dedupByKey, if_pos h]
      exact ih seen
    · rw [dedupByKey, if_neg h]
      rcases ih (keyOf r :: seen) with ⟨hfresh, hnd⟩
      constructor
      · intro z hz
        rcases List.mem_cons.mp hz with rfl | hz
        · exact h
        · exact fun hzs => hfresh z hz (List.mem_cons_of_mem _ hzs)
      · rw [List.map_cons, List.nodup_cons]
        refine ⟨?_, hnd⟩
        intro hmem
        rcases List.mem_map.mp hmem with ⟨z, hz, hze⟩
        exact hfresh z hz (hze ▸ List.mem_cons_self _ _)

theorem dedupByKey_max : ∀ (l : List ScoredPair) (seen : List (String × String)),
    l.Pairwise (fun a b => b.score ≤ a.score) →
    ∀ r ∈ dedupByKey l seen, ∀ z ∈ l, keyOf z = keyOf r → z.score ≤ r.score := by
  intro l
  induction l with
  | nil => intro seen _ r hr; simp [dedupByKey] at hr
  | cons a as ih =>
    intro seen hp r hr z hz hkey
    rcases List.pairwise_cons.mp hp with ⟨ha, has⟩
    by_cases h : keyOf a ∈ seen
    · rw [dedupByKey, if_pos h] at hr
      rcases List.mem_cons.mp hz with rfl | hz
      · exact absurd (hkey ▸ h) ((dedupByKey_fresh as seen).1 r hr)
      · exact ih seen has r hr z hz hkey
    · rw [dedupByKey, if_neg h] at hr
      rcases List.mem_cons.mp hr with rfl | hr
      · rcases List.mem_cons.mp hz with rfl | hz
        · exact le_refl _
        · exact ha z hz
      · rcases List.mem_cons.mp hz with rfl | hz
        · have : keyOf r ∉ keyOf z :: seen := (dedupByKey_fresh as _).1 r hr
          exact absurd (hkey ▸ List.mem_cons_self _ _) (hkey ▸ this)
        · exact ih _ has r hr z hz hkey

theorem dedupByKey_exists : ∀ (l : List ScoredPair) (seen : List (String × String))
    (κ : String × String), κ ∉ seen → κ ∈ l.map keyOf →
    ∃ r ∈ dedupByKey l seen, keyOf r = κ := by
  intro l
  induction l with
  | nil => intro seen κ _ h; simp at h
  | cons a as ih =>
    intro seen κ hseen hmem
    by_cases h : keyOf a ∈ seen
    · rw [dedupByKey, if_pos h]
      rcases List.mem_cons.mp hmem with he | hmem
      · exact absurd (he ▸ h) hseen
      · exact ih seen κ hseen hmem
    · rw [dedupByKey, if_neg h]
      by_cases he : keyOf a = κ
      · exact ⟨a, List.mem_cons_self _ _, he⟩
      · rcases List.mem_cons.mp hmem with he' | hmem
        · exact absurd he'.symm he
        · rcases ih (keyOf a :: seen) κ
            (by intro hc; rcases List.mem_cons.mp hc with hc | hc
                · exact he hc.symm
                · exact hseen hc) hmem with ⟨r, hr, hrκ⟩
          exact ⟨r, List.mem_cons_of_mem _ hr, hrκ⟩

theorem strHasSub_semantic_title :
    strHasSub ['f', 'u', 'z', 'z', 'y']
      ['s', 'e', 'm', 'a', 'n', 't', 'i', 'c', '_', 't', 'i', 't', 'l', 'e'] = false := by
  decide

theorem strHasSub_semantic_full :
    strHasSub ['f', 'u', 'z', 'z', 'y']
      ['s', 'e', 'm', 'a', 'n', 't', 'i', 'c', '_', 'f', 'u', 'l', 'l'] = false := by
  decide

theorem strHasSub_fuzzy_title :
    strHasSub ['f', 'u', 'z', 'z', 'y']
      ['f', 'u', 'z', 'z', 'y', '_', 't', 'i', 't', 'l', 'e'] = true := by
  decide

theorem strHasSub_fuzzy_full :
    strHasSub ['f', 'u', 'z', 'z', 'y']
      ['f', 'u', 'z', 'z', 'y', '_', 'f', 'u', 'l', 'l'] = true := by
  decide

theorem combinedOf_eq (st sf ft ff : Option (List ScoredPair)) :
    combinedOf st sf ft ff =
      st.getD [] ++ sf.getD [] ++ scaleFuzzy (ft.getD []) ++ scaleFuzzy (ff.getD []) := by
  cases st <;> cases sf <;> cases ft <;> cases ff <;>
    simp [combinedOf, framesOf, strHasSub_semantic_title, strHasSub_semantic_full,
      strHasSub_fuzzy_title, strHasSub_fuzzy_full, scaleFuzzy]

theorem length_filter_key_le_one {m : List ScoredPair}
    (h : (m.map keyOf).Nodup) (κ : String × String) :
    (m.filter fun r => decide (keyOf r = κ)).length ≤ 1 := by
  induction m with
  | nil => simp
  | cons a as ih =>
    rw [List.map_cons] at h
    rcases List.nodup_cons.mp h with ⟨ha, has⟩
    by_cases he : keyOf a = κ
    · rw [List.filter_cons, if_pos (by simpa using he)]
      have : as.filter (fun r => decide (keyOf r = κ)) = [] := by
        rw [List.filter_eq_nil_iff]
        intro z hz hc
        have : keyOf z = κ := of_decide_eq_true hc
        exact ha (List.mem_map.mpr ⟨z, hz, this.trans he.symm⟩)
      simp [this]
    · rw [List.filter_cons, if_neg (by simpa using he)]
      exact ih has

/-- Claim C3: in `load_event_matches`, lexical (fuzzy) scores are divided by
100 and semantic scores taken unchanged (first conjunct); for every
(kalshi_event, poly_event) pair, at most one consolidated row survives
(second conjunct), any surviving row carries the maximum normalised score of
that pair and is at or above the 0.70 floor (third conjunct), and whenever a
pair's maximal normalised score reaches the floor, a consolidated row with
exactly that score survives (fourth conjunct). -/
theorem load_event_matches_consolidation
    (st sf ft ff : Option (List ScoredPair)) (out : List ScoredPair)
    (h : load_event_matches st sf ft ff = some out) (k p : String) :
    combinedOf st sf ft ff =
      st.getD [] ++ sf.getD [] ++ scaleFuzzy (ft.getD []) ++ scaleFuzzy (ff.getD []) ∧
    (out.filter fun r => decide (r.kalshi_event = k ∧ r.poly_event = p)).length ≤ 1 ∧
    (∀ r ∈ out, r.kalshi_event = k → r.poly_event = p →
      r.score ∈ keyScores (combinedOf st sf ft ff) k p ∧
      (∀ s ∈ keyScores (combinedOf st sf ft ff) k p, s ≤ r.score) ∧
      MIN_EVENT_SCORE ≤ r.score) ∧
    (∀ s ∈ keyScores (combinedOf st sf ft ff) k p,
      (∀ s' ∈ keyScores (combinedOf st sf ft ff) k p, s' ≤ s) →
      MIN_EVENT_SCORE ≤ s →
      ∃ r ∈ out, r.kalshi_event = k ∧ r.poly_event = p ∧ r.score = s) := by
  have hout : out =
      (dedupByKey (sortDescBy (·.score) (combinedOf st sf ft ff)) []).filter
        fun r => decide (MIN_EVENT_SCORE ≤ r.score) := by
    rw [load_event_matches] at h
    split at h
    · exact absurd h (by simp)
    · exact (Option.some.inj h).symm
  have hnodup : ((dedupByKey (sortDescBy (·.score) (combinedOf st sf ft ff)) []).map
      keyOf).Nodup :=
    (dedupByKey_fresh _ _).2
  have hpair : (sortDescBy (·.score) (combinedOf st sf ft ff)).Pairwise
      (fun a b => b.score ≤ a.score) := sortDescBy_pairwise _
  refine ⟨combinedOf_eq st sf ft ff, ?_, ?_, ?_⟩
  · have hfc : (out.filter fun r => decide (r.kalshi_event = k ∧ r.poly_event = p)) =
        out.filter fun r => decide (keyOf r = (k, p)) :=
      List.filter_congr fun a _ =>
        decide_eq_decide.mpr (by simp [keyOf, Prod.ext_iff])
    have hsub2 : out.Sublist
        (dedupByKey (sortDescBy (·.score) (combinedOf st sf ft ff)) []) :=
      hout ▸ List.filter_sublist _
    have houtnd : (out.map keyOf).Nodup := hnodup.sublist (hsub2.map keyOf)
    rw [hfc]
    exact length_filter_key_le_one houtnd (k, p)
  · intro r hr hrk hrp
    rcases List.mem_filter.mp (hout ▸ hr) with ⟨hrbest, hrmin⟩
    have hrmin' : MIN_EVENT_SCORE ≤ r.score := of_decide_eq_true hrmin
    have hrsorted : r ∈ sortDescBy (·.score) (combinedOf st sf ft ff) :=
      dedupByKey_subset hrbest
    have hrcomb : r ∈ combinedOf st sf ft ff := mem_sortDescBy.mp hrsorted
    refine ⟨List.mem_map.mpr ⟨r, List.mem_filter.mpr ⟨hrcomb, by simp [hrk, hrp]⟩, rfl⟩,
      ?_, hrmin'⟩
    intro s hs
    rcases List.mem_map.mp hs with ⟨z, hzf, hzs⟩
    rcases List.mem_filter.mp hzf with ⟨hzc, hzp⟩
    rcases of_decide_eq_true hzp with ⟨hzk, hzp'⟩
    have hkey : keyOf z = keyOf r := by simp [keyOf, hzk, hzp', hrk, hrp]
    exact hzs ▸ dedupByKey_max _ [] hpair r hrbest z (mem_sortDescBy.mpr hzc) hkey
  · intro s hs hmax hsmin
    rcases List.mem_map.mp hs with ⟨z, hzf, hzs⟩
    rcases List.mem_filter.mp hzf with ⟨hzc, hzp⟩
    rcases of_decide_eq_true hzp with ⟨hzk, hzp'⟩
    have hκ : (k, p) ∈ (sortDescBy (·.score) (combinedOf st sf ft ff)).map keyOf :=
      List.mem_map.mpr ⟨z, mem_sortDescBy.mpr hzc, by simp [keyOf, hzk, hzp']⟩
    rcases dedupByKey_exists _ [] (k, p) (by simp) hκ with ⟨r, hrbest, hrκ⟩
    have hrk : r.kalshi_event = k := congrArg Prod.fst hrκ
    have hrp : r.poly_event = p := congrArg Prod.snd hrκ
    have hrcomb : r ∈ combinedOf st sf ft ff :=
      mem_sortDescBy.mp (dedupByKey_subset hrbest)
    have hle1 : z.score ≤ r.score :=
      dedupByKey_max _ [] hpair r hrbest z (mem_sortDescBy.mpr hzc)
        (by simp [keyOf, hzk, hzp', hrk, hrp])
    have hle2 : r.score ≤ s := by
      refine hmax r.score (List.mem_map.mpr ⟨r, List.mem_filter.mpr ⟨hrcomb, ?_⟩, rfl⟩)
      simp [hrk, hrp]
    have hreq : r.score = s := le_antisymm hle2 (hzs ▸ hle1)
    refine ⟨r, ?_, hrk, hrp, hreq⟩
    rw [hout]
    exact List.mem_filter.mpr ⟨hrbest, decide_eq_true (hreq ▸ hsmin)⟩

/-- Witness for C3 at a concrete input (only a semantic file present). -/
theorem load_event_matches_consolidation_witness :
    load_event_matches (some [⟨"k", "p", 1⟩]) none none none = some [⟨"k", "p", 1⟩] ∧
    (([⟨"k", "p", 1⟩] : List ScoredPair).filter
      fun r => decide (r.kalshi_event = "k" ∧ r.poly_event = "p")).length ≤ 1 :=
  ⟨by decide,
    (load_event_matches_consolidation (some [⟨"k", "p", 1⟩]) none none none
      [⟨"k", "p", 1⟩] (by decide) "k" "p").2.1⟩

/- ═════════════════════════════════════════════════════════════════════════
   Claim C6 — generalize_strings edge cases
   ═══════════════════════════════════════════════════════════════════════ -/

/-- Claim C6: `generalize_strings` returns the sole non-blank input unchanged
when exactly one input is non-blank; returns the common string unchanged when
all non-blank inputs are identical; and returns the empty string when no
input is non-blank (empty list, or all empty/whitespace). -/
theorem generalize_strings_edge_cases (xs : List PyStr) :
    (xs.filter isNonBlank = [] → generalize_strings xs = []) ∧
    (∀ s, xs.filter isNonBlank = [s] → generalize_strings xs = s) ∧
    (∀ s t rest, xs.filter isNonBlank = s :: t :: rest →
      (t :: rest).all (fun y => decide (y = s)) = true →
      generalize_strings xs = s) := by
  refine ⟨?_, ?_, ?_⟩
  · intro h
    simp [generalize_strings, h]
  · intro s h
    simp [generalize_strings, h]
  · intro s t rest h hall
    simp [generalize_strings, h, hall]

/-- Witness for C6 at concrete inputs: one non-blank input; three identical
inputs; all-whitespace inputs. -/
theorem generalize_strings_edge_cases_witness :
    generalize_strings [toL " ", toL "abc"] = toL "abc" ∧
    generalize_strings [toL "ab", toL "ab", toL "ab"] = toL "ab" ∧
    generalize_strings [toL "", toL " "] = [] :=
  ⟨(generalize_strings_edge_cases [toL " ", toL "abc"]).2.1 (toL "abc") (by decide),
    (generalize_strings_edge_cases [toL "ab", toL "ab", toL "ab"]).2.2 (toL "ab")
      (toL "ab") [toL "ab"] (by decide) (by decide),
    (generalize_strings_edge_cases [toL "", toL " "]).1 (by decide)⟩

/- ═════════════════════════════════════════════════════════════════════════
   Lemmas: strip primitives
   ═══════════════════════════════════════════════════════════════════════ -/

theorem dropWhile_head_false {p : Char → Bool} :
    ∀ {l : List Char} {c : Char} {cs : List Char},
      l.dropWhile p = c :: cs → p c = false := by
  intro l
  induction l with
  | nil => intro c cs h; simp [List.dropWhile] at h
  | cons a as ih =>
    intro c cs h
    rw [List.dropWhile_cons] at h
    by_cases hp : p a
    · rw [if_pos hp] at h; exact ih h
    · rw [if_neg hp] at h
      rcases List.cons.inj h with ⟨rfl, -⟩
      exact Bool.not_eq_true _ ▸ (by simpa using hp)

theorem pyRStrip_append_allws {A w : PyStr}
    (hw : ∀ c ∈ w, c.isWhitespace = true) : pyRStrip (A ++ w) = pyRStrip A := by
  unfold pyRStrip
  rw [List.reverse_append, List.dropWhile_append]
  have : (w.reverse.dropWhile Char.isWhitespace) = [] :=
    List.dropWhile_eq_nil_iff.mpr fun x hx => hw x (List.mem_reverse.mp hx)
  rw [this]
  simp

theorem pyRStrip_append_of_ne {A B : PyStr} (hB : pyRStrip B ≠ []) :
    pyRStrip (A ++ B) = A ++ pyRStrip B := by
  unfold pyRStrip at hB ⊢
  rw [List.reverse_append, List.dropWhile_append]
  have hne : ¬(B.reverse.dropWhile Char.isWhitespace).isEmpty = true := by
    intro hc
    exact hB (by simp [List.isEmpty_iff.mp hc])
  rw [if_neg hne]
  rw [List.reverse_append, List.reverse_reverse]

theorem pyStrip_append_allws {X w : PyStr}
    (hw : ∀ c ∈ w, c.isWhitespace = true) : pyStrip (X ++ w) = pyStrip X := by
  unfold pyStrip
  rw [pyRStrip_append_allws hw]

theorem pyRStrip_decomp (l : PyStr) :
    ∃ w, l = pyRStrip l ++ w ∧ ∀ c ∈ w, c.isWhitespace = true := by
  have heq : l = pyRStrip l ++ (l.reverse.takeWhile Char.isWhitespace).reverse := by
    have h1 : l.reverse.takeWhile Char.isWhitespace ++
        l.reverse.dropWhile Char.isWhitespace = l.reverse :=
      List.takeWhile_append_dropWhile _ _
    calc l = l.reverse.reverse := (List.reverse_reverse l).symm
    _ = (l.reverse.takeWhile Char.isWhitespace ++
          l.reverse.dropWhile Char.isWhitespace).reverse := by rw [h1]
    _ = (l.reverse.dropWhile Char.isWhitespace).reverse ++
          (l.reverse.takeWhile Char.isWhitespace).reverse := by
        rw [List.reverse_append]
    _ = pyRStrip l ++ (l.reverse.takeWhile Char.isWhitespace).reverse := rfl
  exact ⟨_, heq, fun c hc => List.mem_takeWhile_imp (List.mem_reverse.mp hc)⟩

theorem pyStrip_decomp (l : PyStr) :
    ∃ w, pyRStrip l = w ++ pyStrip l ∧ ∀ c ∈ w, c.isWhitespace = true := by
  refine ⟨(pyRStrip l).takeWhile Char.isWhitespace, ?_, ?_⟩
  · rw [pyStrip, List.takeWhile_append_dropWhile]
  · intro c hc
    exact List.mem_takeWhile_imp hc

theorem ws_of_pyStrip_nil {l : PyStr} (h : pyStrip l = []) :
    ∀ c ∈ l, c.isWhitespace = true := by
  intro c hc
  rcases pyRStrip_decomp l with ⟨w, hdec, hw⟩
  rw [hdec] at hc
  rcases List.mem_append.mp hc with hc | hc
  · have hall : ∀ x ∈ pyRStrip l, Char.isWhitespace x = true :=
      List.dropWhile_eq_nil_iff.mp h
    exact hall c hc
  · exact hw c hc

theorem pyRStrip_ne_nil_of_pyStrip {l : PyStr} (h : pyStrip l ≠ []) :
    pyRStrip l ≠ [] := by
  intro hc
  exact h (by rw [pyStrip, hc]; rfl)

theorem pyRStrip_reverse_eq (l : PyStr) :
    (pyRStrip l).reverse = l.reverse.dropWhile Char.isWhitespace := by
  rw [pyRStrip, List.reverse_reverse]

theorem pyStrip_idem (l : PyStr) : pyStrip (pyStrip l) = pyStrip l := by
  cases hs : pyStrip l with
  | nil => simp [pyStrip, pyRStrip]
  | cons c cs =>
    rw [← hs]
    have hdw : (pyStrip l).dropWhile Char.isWhitespace = pyStrip l := by
      rw [hs]
      rw [List.dropWhile_cons, if_neg]
      rw [pyStrip] at hs
      rw [Bool.not_eq_true]
      exact dropWhile_head_false hs
    have hrs : pyRStrip (pyStrip l) = pyStrip l := by
      have hsuf : pyStrip l <:+ pyRStrip l := List.dropWhile_suffix _
      rcases hsuf with ⟨s, hsfx⟩
      have hrev : (pyRStrip l).reverse = (pyStrip l).reverse ++ s.reverse := by
        rw [← hsfx, List.reverse_append]
      have hrev2 : (pyStrip l).reverse.dropWhile Char.isWhitespace
          = (pyStrip l).reverse := by
        cases hr : (pyStrip l).reverse with
        | nil => rfl
        | cons d ds =>
          rw [List.dropWhile_cons, if_neg]
          rw [Bool.not_eq_true]
          have hhead : (pyRStrip l).reverse = d :: (ds ++ s.reverse) := by
            rw [hrev, hr]; simp
          have := pyRStrip_reverse_eq l
          rw [this] at hhead
          exact dropWhile_head_false hhead
      rw [pyRStrip, hrev2, List.reverse_reverse]
    rw [pyStrip, hrs, hdw]

/-- Bridge between the executable `isPrefixOf` and the prefix order. -/
theorem isPrefixOf_eq_true {α : Type} [DecidableEq α] {l₁ l₂ : List α} :
    l₁.isPrefixOf l₂ = true ↔ l₁ <+: l₂ :=
  List.isPrefixOf_iff_prefix

/- ═════════════════════════════════════════════════════════════════════════
   Claims C7 and C8 — blank-fill extraction
   ═══════════════════════════════════════════════════════════════════════ -/

/-- Counterexample for C7 as stated: with template `"a [blank]"`
(prefix `"a "`, empty suffix — so there is no trailing-punctuation ambiguity
at all) and fill `X = "x "` (non-empty after stripping), the extractor
returns the *stripped* fill `"x"`, not `X` itself. -/
theorem extract_blank_round_trip_counterexample :
    splitFirst blankTok (toL "a " ++ blankTok ++ []) = some (toL "a ", []) ∧
    pyStrip (toL "x ") ≠ [] ∧
    extract_blank (toL "a " ++ blankTok ++ []) (toL "a " ++ toL "x " ++ []) ≠
      some (toL "x ") ∧
    extract_blank (toL "a " ++ blankTok ++ []) (toL "a " ++ toL "x " ++ []) =
      some (toL "x") := by
  decide

/-- Claim C7 (amended): for a template `prefix ++ "[blank]" ++ suffix` (whose
first marker occurrence separates exactly that prefix and suffix) and a
concrete title `prefix ++ X ++ suffix`, `_extract_blank` returns `X` stripped
of surrounding whitespace — hence `X` itself whenever `X` carries no leading
or trailing whitespace and is non-empty. -/
theorem extract_blank_round_trip (pre suf X : PyStr)
    (hsplit : splitFirst blankTok (pre ++ blankTok ++ suf) = some (pre, suf))
    (hX : pyStrip X ≠ []) :
    extract_blank (pre ++ blankTok ++ suf) (pre ++ X ++ suf) = some (pyStrip X) := by
  simp only [extract_blank, hsplit]
  have hpre : pre.isPrefixOf (pre ++ X ++ suf) = true := by
    rw [List.append_assoc]
    exact isPrefixOf_eq_true.mpr (List.prefix_append pre (X ++ suf))
  rw [if_neg (by simp [hpre])]
  have hrest : (pre ++ X ++ suf).drop pre.length = X ++ suf := by
    rw [List.append_assoc]
    exact List.drop_left pre (X ++ suf)
  rw [hrest]
  by_cases hs : pyStrip suf = []
  · have hcond : ¬((!(pyStrip suf).isEmpty) = true ∧
        (pyStrip suf).isSuffixOf (pyRStrip (X ++ suf)) = true) := by
      rw [hs]; simp
    rw [if_neg hcond]
    have hb : pyStrip (X ++ suf) = pyStrip X :=
      pyStrip_append_allws (ws_of_pyStrip_nil hs)
    rw [hb, if_neg (by simpa [List.isEmpty_iff] using hX)]
  · have hrne : pyRStrip suf ≠ [] := pyRStrip_ne_nil_of_pyStrip hs
    have hrs : pyRStrip (X ++ suf) = X ++ pyRStrip suf := pyRStrip_append_of_ne hrne
    rcases pyStrip_decomp suf with ⟨w, hdec, hw⟩
    have hrs2 : pyRStrip (X ++ suf) = (X ++ w) ++ pyStrip suf := by
      rw [hrs, hdec, List.append_assoc]
    have hsfx : (pyStrip suf).isSuffixOf (pyRStrip (X ++ suf)) = true := by
      rw [hrs2]
      exact List.isSuffixOf_iff_suffix.mpr (List.suffix_append (X ++ w) (pyStrip suf))
    have hcond : (!(pyStrip suf).isEmpty) = true ∧
        (pyStrip suf).isSuffixOf (pyRStrip (X ++ suf)) = true :=
      ⟨by simpa [List.isEmpty_iff] using hs, hsfx⟩
    rw [if_pos hcond]
    have htake : (pyRStrip (X ++ suf)).take
        ((pyRStrip (X ++ suf)).length - (pyStrip suf).length) = X ++ w := by
      rw [hrs2, List.length_append, Nat.add_sub_cancel]
      exact List.take_left (X ++ w) (pyStrip suf)
    rw [htake]
    have hb : pyStrip (X ++ w) = pyStrip X := pyStrip_append_allws hw
    rw [hb, if_neg (by simpa [List.isEmpty_iff] using hX)]

/-- Witness for the amended C7 at a concrete input. -/
theorem extract_blank_round_trip_witness :
    splitFirst blankTok (toL "a " ++ blankTok ++ toL " b") =
      some (toL "a ", toL " b") ∧
    pyStrip (toL "x") ≠ [] ∧
    extract_blank (toL "a " ++ blankTok ++ toL " b")
      (toL "a " ++ toL "x" ++ toL " b") = some (pyStrip (toL "x")) :=
  ⟨by decide, by decide,
    extract_blank_round_trip (toL "a ") (toL " b") (toL "x") (by decide) (by decide)⟩

/-- Claim C8: `_extract_blank`'s failure semantics.  (1) A non-empty template
prefix that does not start the title yields the "no fill" sentinel `none`
rather than an error.  (2) When the stripped suffix is non-empty but the
right-stripped remainder does not end with it, the entire remainder is used
(then stripped), falling back instead of failing.  (3) Any returned fill is
whitespace-stripped and non-empty — an empty-after-strip result becomes the
sentinel `none`. -/
theorem extract_blank_failure_semantics :
    (∀ template title pre suf, splitFirst blankTok template = some (pre, suf) →
      pre ≠ [] → pre.isPrefixOf title = false →
      extract_blank template title = none) ∧
    (∀ template title pre suf, splitFirst blankTok template = some (pre, suf) →
      pre.isPrefixOf title = true → pyStrip suf ≠ [] →
      (pyStrip suf).isSuffixOf (pyRStrip (title.drop pre.length)) = false →
      extract_blank template title =
        if (pyStrip (title.drop pre.length)).isEmpty then none
        else some (pyStrip (title.drop pre.length))) ∧
    (∀ template title b, extract_blank template title = some b →
      pyStrip b = b ∧ b ≠ []) := by
  refine ⟨?_, ?_, ?_⟩
  · intro template title pre suf hsplit hpre hnp
    simp only [extract_blank, hsplit]
    rw [if_pos]
    exact ⟨by simpa [List.isEmpty_iff] using hpre, by simp [hnp]⟩
  · intro template title pre suf hsplit hpre hss hns
    simp only [extract_blank, hsplit]
    rw [if_neg (by simp [hpre])]
    have hcond : ¬((!(pyStrip suf).isEmpty) = true ∧
        (pyStrip suf).isSuffixOf (pyRStrip (title.drop pre.length)) = true) := by
      simp [hns]
    rw [if_neg hcond]
  · intro template title b h
    cases hsp : splitFirst blankTok template with
    | none =>
      simp only [extract_blank, hsp] at h
      exact absurd h (by simp)
    | some ps =>
      rcases ps with ⟨pre, suf⟩
      simp only [extract_blank, hsp] at h
      by_cases hc1 : (!pre.isEmpty) = true ∧ ¬pre.isPrefixOf title = true
      · rw [if_pos hc1] at h; exact absurd h (by simp)
      · rw [if_neg hc1] at h
        set blank := if (!(pyStrip suf).isEmpty) = true ∧
            (pyStrip suf).isSuffixOf (pyRStrip (title.drop pre.length)) = true then
            (pyRStrip (title.drop pre.length)).take
              ((pyRStrip (title.drop pre.length)).length - (pyStrip suf).length)
          else title.drop pre.length with hblank
        by_cases hc2 : (pyStrip blank).isEmpty = true
        · rw [if_pos hc2] at h; exact absurd h (by simp)
        · rw [if_neg hc2] at h
          have hb : b = pyStrip blank := (Option.some.inj h).symm
          subst hb
          exact ⟨pyStrip_idem blank, by simpa [List.isEmpty_iff] using hc2⟩

/-- Witness for C8 at concrete inputs: a prefix mismatch (returns the
sentinel), a suffix mismatch (falls back to the stripped remainder), and a
successful extraction (stripped, non-empty). -/
theorem extract_blank_failure_semantics_witness :
    extract_blank (toL "a [blank]") (toL "b x") = none ∧
    extract_blank (toL "a [blank] c!") (toL "a x.") =
      (if (pyStrip ((toL "a x.").drop (toL "a ").length)).isEmpty then none
        else some (pyStrip ((toL "a x.").drop (toL "a ").length))) ∧
    (pyStrip (toL "x") = toL "x" ∧ toL "x" ≠ []) :=
  ⟨(extract_blank_failure_semantics).1 (toL "a [blank]") (toL "b x") (toL "a ") []
      (by decide) (by decide) (by decide),
    (extract_blank_failure_semantics).2.1 (toL "a [blank] c!") (toL "a x.")
      (toL "a ") (toL " c!") (by decide) (by decide) (by decide) (by decide),
    (extract_blank_failure_semantics).2.2 (toL "a [blank] c") (toL "a x c") (toL "x")
      (by decide)⟩

/- ═════════════════════════════════════════════════════════════════════════
   Claim C9 — market matching mode, thresholds, exclusion of failed blanks
   ═══════════════════════════════════════════════════════════════════════ -/

/-- Claim C9: in `match_markets_in_pair`, blank-comparison mode is active iff
both event templates contain the wildcard marker; in blank mode every output
pair comes from markets whose blank extraction *succeeded* (a market whose
extraction returned the sentinel appears in no candidate and hence in no
output pair) and its score is the blank similarity at or above threshold 85;
otherwise scores are direct title similarities at or above threshold 90. -/
theorem match_markets_mode_and_exclusion
    (k_event p_event : String) (event_score : ℚ)
    (k_markets p_markets : List MarketRow) (sim : PyStr → PyStr → ℚ)
    (c : MarketPair)
    (hc : c ∈ match_markets_in_pair k_event p_event event_score
      k_markets p_markets sim) :
    if containsTok blankTok (k_markets.headD defaultMarketRow).event_title ∧
        containsTok blankTok (p_markets.headD defaultMarketRow).event_title then
      ∃ km ∈ k_markets, ∃ pm ∈ p_markets, ∃ bk bp,
        c.kalshi_ticker = km.ticker ∧ c.poly_ticker = pm.ticker ∧
        extract_blank (k_markets.headD defaultMarketRow).event_title km.title =
          some bk ∧
        extract_blank (p_markets.headD defaultMarketRow).event_title pm.title =
          some bp ∧
        BLANK_MATCH_THRESHOLD ≤ sim bk bp ∧ c.market_score = sim bk bp
    else
      ∃ km ∈ k_markets, ∃ pm ∈ p_markets,
        c.kalshi_ticker = km.ticker ∧ c.poly_ticker = pm.ticker ∧
        TITLE_MATCH_THRESHOLD ≤ sim km.title pm.title ∧
        c.market_score = sim km.title pm.title := by
  simp only [match_markets_in_pair, market_mutual_best] at hc
  have hcc := mutualBestBy_subset hc
  rcases List.mem_flatMap.mp hcc with ⟨ki, hki, hfi⟩
  rcases List.mem_map.mp hki with ⟨km, hkm, hkieq⟩
  rcases List.mem_filterMap.mp hfi with ⟨pi, hpi, hf⟩
  rcases List.mem_map.mp hpi with ⟨pm, hpm, hpieq⟩
  subst hkieq
  subst hpieq
  cases hub : containsTok blankTok (k_markets.headD defaultMarketRow).event_title &&
      containsTok blankTok (p_markets.headD defaultMarketRow).event_title with
  | true =>
    rw [if_pos (Bool.and_eq_true .. |>.mp hub)]
    simp only [if_pos hub] at hf
    cases hbk : extract_blank (k_markets.headD defaultMarketRow).event_title
        km.title with
    | none => rw [hbk] at hf; simp at hf
    | some b1 =>
      cases hbp : extract_blank (p_markets.headD defaultMarketRow).event_title
          pm.title with
      | none => rw [hbk, hbp] at hf; simp at hf
      | some b2 =>
        rw [hbk, hbp] at hf
        by_cases hth : BLANK_MATCH_THRESHOLD ≤ sim b1 b2
        · simp only [if_pos hth] at hf
          have hck := Option.some.inj hf
          refine ⟨km, hkm, pm, hpm, b1, b2, ?_, ?_, hbk, hbp, hth, ?_⟩ <;>
            rw [← hck]
        · simp only [if_neg hth] at hf
          exact absurd hf (by simp)
  | false =>
    have hnc : ¬(containsTok blankTok
          (k_markets.headD defaultMarketRow).event_title = true ∧
        containsTok blankTok
          (p_markets.headD defaultMarketRow).event_title = true) := by
      rintro ⟨h1, h2⟩
      rw [h1, h2] at hub
      simp at hub
    rw [if_neg hnc]
    have hub' : ¬(containsTok blankTok
          (k_markets.headD defaultMarketRow).event_title &&
        containsTok blankTok
          (p_markets.headD defaultMarketRow).event_title) = true := by
      rw [hub]; simp
    simp only [if_neg hub'] at hf
    by_cases hth : TITLE_MATCH_THRESHOLD ≤ sim km.title pm.title
    · simp only [if_pos hth] at hf
      have hck := Option.some.inj hf
      refine ⟨km, hkm, pm, hpm, ?_, ?_, hth, ?_⟩ <;> rw [← hck]
    · simp only [if_neg hth] at hf
      exact absurd hf (by simp)

/-- Witness for C9 at a concrete input (blank mode, matching fills). -/
theorem match_markets_mode_and_exclusion_witness :
    wPair ∈ match_markets_in_pair "KE" "PE" 1 wKMarkets wPMarkets wSim ∧
    (if containsTok blankTok (wKMarkets.headD defaultMarketRow).event_title ∧
        containsTok blankTok (wPMarkets.headD defaultMarketRow).event_title then
      ∃ km ∈ wKMarkets, ∃ pm ∈ wPMarkets, ∃ bk bp,
        wPair.kalshi_ticker = km.ticker ∧ wPair.poly_ticker = pm.ticker ∧
        extract_blank (wKMarkets.headD defaultMarketRow).event_title km.title =
          some bk ∧
        extract_blank (wPMarkets.headD defaultMarketRow).event_title pm.title =
          some bp ∧
        BLANK_MATCH_THRESHOLD ≤ wSim bk bp ∧ wPair.market_score = wSim bk bp
    else
      ∃ km ∈ wKMarkets, ∃ pm ∈ wPMarkets,
        wPair.kalshi_ticker = km.ticker ∧ wPair.poly_ticker = pm.ticker ∧
        TITLE_MATCH_THRESHOLD ≤ wSim km.title pm.title ∧
        wPair.market_score = wSim km.title pm.title) :=
  ⟨by decide,
    match_markets_mode_and_exclusion "KE" "PE" 1 wKMarkets wPMarkets wSim wPair
      (by decide)⟩

/- ═════════════════════════════════════════════════════════════════════════
   Lemmas: substring occurrence machinery for C10
   ═══════════════════════════════════════════════════════════════════════ -/

theorem containsTok_eq_true_iff {pat l : PyStr} :
    containsTok pat l = true ↔ pat <:+: l := by
  rw [containsTok, splitFirst, Option.isSome_map']
  rw [List.find?_isSome]
  constructor
  · rintro ⟨i, -, hp⟩
    have hpre : pat <+: l.drop i := isPrefixOf_eq_true.mp hp
    exact hpre.isInfix.trans (List.drop_suffix i l).isInfix
  · rintro ⟨s, t, hst⟩
    refine ⟨s.length, List.mem_range.mpr ?_, ?_⟩
    · have : l.length = s.length + (pat.length + t.length) := by
        rw [← hst]; simp [List.length_append, Nat.add_assoc]
      omega
    · have hdrop : l.drop s.length = pat ++ t := by
        rw [← hst, List.append_assoc]
        exact List.drop_left s (pat ++ t)
      rw [hdrop]
      exact isPrefixOf_eq_true.mpr (List.prefix_append pat t)

theorem occCount_eq_zero_of_not_contains {pat l : PyStr}
    (h : containsTok pat l = false) : occCount pat l = 0 := by
  rw [occCount, List.length_eq_zero]
  rw [List.filter_eq_nil_iff]
  intro i hi hp
  have : pat <:+: l := by
    have hpre : pat <+: l.drop i := isPrefixOf_eq_true.mp hp
    exact hpre.isInfix.trans (List.drop_suffix i l).isInfix
  rw [containsTok_eq_true_iff.mpr this] at h
  exact Bool.true_eq_false ▸ h

theorem getElem_of_isPrefixOf_drop {pat l : PyStr} {i : Nat}
    (h : pat.isPrefixOf (l.drop i) = true) :
    ∀ j < pat.length, l[i + j]? = pat[j]? := by
  intro j hj
  rcases isPrefixOf_eq_true.mp h with ⟨t, ht⟩
  rw [← List.getElem?_drop, ← ht]
  exact List.getElem?_append_left hj

theorem prefix_space_left {pat : PyStr} (hsp : ' ' ∉ pat) :
    ∀ {X Y : PyStr}, pat <+: X ++ ' ' :: Y → pat <+: X := by
  induction pat with
  | nil => intro X Y _; exact List.nil_prefix
  | cons p ps ih =>
    intro X Y hp
    cases X with
    | nil =>
      rw [List.nil_append] at hp
      rcases List.cons_prefix_cons.mp hp with ⟨rfl, -⟩
      exact absurd (List.mem_cons_self _ _) hsp
    | cons x X' =>
      rw [List.cons_append] at hp
      rcases List.cons_prefix_cons.mp hp with ⟨rfl, hps⟩
      have hsp' : ' ' ∉ ps := fun hc => hsp (List.mem_cons_of_mem _ hc)
      exact List.cons_prefix_cons.mpr ⟨rfl, ih hsp' hps⟩

theorem space_split_of_isInfix {pat : PyStr} (hsp : ' ' ∉ pat) (hne : pat ≠ []) :
    ∀ {X Y : PyStr}, pat <:+: X ++ ' ' :: Y → pat <:+: X ∨ pat <:+: Y := by
  intro X
  induction X with
  | nil =>
    intro Y h
    rw [List.nil_append] at h
    rcases List.infix_cons_iff.mp h with h | h
    · rcases h with ⟨t, ht⟩
      cases pat with
      | nil => exact absurd rfl hne
      | cons p ps =>
        rcases List.cons.inj ht with ⟨rfl, -⟩
        exact absurd (List.mem_cons_self _ _) hsp
    · exact Or.inr h
  | cons x X' ih =>
    intro Y h
    rw [List.cons_append] at h
    rcases List.infix_cons_iff.mp h with h | h
    · rw [← List.cons_append] at h
      exact Or.inl (prefix_space_left hsp h).isInfix
    · rcases ih h with h | h
      · exact Or.inl (List.infix_cons h)
      · exact Or.inr h

theorem isInfix_joinWords {pat : PyStr} (hsp : ' ' ∉ pat) (hne : pat ≠ []) :
    ∀ {ws : List PyStr}, pat <:+: joinWords ws → ∃ w ∈ ws, pat <:+: w := by
  intro ws
  induction ws with
  | nil =>
    intro h
    rw [joinWords] at h
    exact absurd (List.eq_nil_of_infix_nil h) hne
  | cons w vs ih =>
    intro h
    cases vs with
    | nil => exact ⟨w, List.mem_cons_self _ _, h⟩
    | cons v vs' =>
      rw [joinWords] at h
      rcases space_split_of_isInfix hsp hne h with h | h
      · exact ⟨w, List.mem_cons_self _ _, h⟩
      · rcases ih h with ⟨u, hu, hup⟩
        exact ⟨u, List.mem_cons_of_mem _ hu, hup⟩

theorem splitWordsAux_mem_isInfix :
    ∀ (l acc : List Char) (w : PyStr), w ∈ splitWordsAux l acc →
      w <:+: acc.reverse ++ l := by
  intro l
  induction l with
  | nil =>
    intro acc w hw
    rw [splitWordsAux] at hw
    by_cases ha : acc.isEmpty
    · rw [if_pos ha] at hw; simp at hw
    · rw [if_neg ha] at hw
      rcases List.mem_singleton.mp hw with rfl
      exact ⟨[], [], by simp⟩
  | cons c cs ih =>
    intro acc w hw
    rw [splitWordsAux] at hw
    by_cases hc : c.isWhitespace
    · rw [if_pos hc] at hw
      by_cases ha : acc.isEmpty
      · rw [if_pos ha] at hw
        have := ih [] w hw
        rw [List.reverse_nil, List.nil_append] at this
        refine this.trans ?_
        exact ⟨acc.reverse ++ [c], [], by simp⟩
      · rw [if_neg ha] at hw
        rcases List.mem_cons.mp hw with rfl | hw
        · exact ⟨[], c :: cs, rfl⟩
        · have := ih [] w hw
          rw [List.reverse_nil, List.nil_append] at this
          refine this.trans ?_
          exact ⟨acc.reverse ++ [c], [], by simp⟩
    · rw [if_neg hc] at hw
      have := ih (c :: acc) w hw
      rw [List.reverse_cons, List.append_assoc] at this
      exact this

theorem pySplitWords_mem_isInfix {s : PyStr} {w : PyStr}
    (hw : w ∈ pySplitWords s) : w <:+: s := by
  have := splitWordsAux_mem_isInfix s [] w hw
  rwa [List.reverse_nil, List.nil_append] at this

theorem range_filter_eq_single {p : Nat → Bool} :
    ∀ {n k : Nat}, k < n → (∀ i < n, (p i = true ↔ i = k)) →
      (List.range n).filter p = [k] := by
  intro n
  induction n with
  | zero => intro k hk; omega
  | succ m ih =>
    intro k hk hp
    rw [List.range_succ, List.filter_append]
    by_cases hkm : k < m
    · rw [ih hkm fun i hi => hp i (Nat.lt_succ_of_lt hi)]
      have : p m = false := by
        cases hpm : p m with
        | false => rfl
        | true => exact absurd ((hp m (Nat.lt_succ_self m)).mp hpm) (by omega)
      simp [this]
    · have hkm' : k = m := by omega
      subst hkm'
      have h1 : (List.range k).filter p = [] := by
        rw [List.filter_eq_nil_iff]
        intro i hi
        have hik : i < k := List.mem_range.mp hi
        intro hc
        exact absurd ((hp i (Nat.lt_succ_of_lt hik)).mp hc) (by omega)
      rw [h1]
      have : p k = true := (hp k (Nat.lt_succ_self k)).mpr rfl
      simp [this]

theorem occCount_one (P S : PyStr)
    (hP : P = [] ∨ ∃ jp, P = jp ++ [' '] ∧ ¬ blankTok <:+: jp)
    (hS : S = [] ∨ ∃ js, S = ' ' :: js ∧ ¬ blankTok <:+: js) :
    occCount blankTok (P ++ blankTok ++ S) = 1 := by
  have hbne : blankTok ≠ [] := by decide
  have hbsp : ' ' ∉ blankTok := by decide
  have hblen : blankTok.length = 7 := rfl
  set l := P ++ blankTok ++ S with hl
  have hlen : l.length = P.length + 7 + S.length := by
    rw [hl, List.length_append, List.length_append, hblen]
  have hkP : P.length < l.length := by omega
  have hkey : ∀ i < l.length,
      ((blankTok.isPrefixOf (l.drop i)) = true ↔ i = P.length) := by
    intro i hi
    constructor
    · intro hpre
      by_contra hne2
      rcases Nat.lt_or_ge i P.length with hlt | hge
      · rcases hP with rfl | ⟨jp, rfl, hjp⟩
        · exact absurd hlt (by simp)
        · have hPl : (jp ++ [' ']).length = jp.length + 1 := by simp
          rcases le_or_lt (i + 7) (jp ++ [' ']).length with hle | hgt
          · have hdrop : l.drop i = (jp ++ [' ']).drop i ++ (blankTok ++ S) := by
              rw [hl, List.append_assoc, List.drop_append_eq_append_drop,
                Nat.sub_eq_zero_of_le (le_of_lt hlt), List.drop_zero]
            have hpre2 : blankTok <+: (jp ++ [' ']).drop i ++ (blankTok ++ S) := by
              rw [← hdrop]
              exact isPrefixOf_eq_true.mp hpre
            have hlen2 : blankTok.length ≤ ((jp ++ [' ']).drop i).length := by
              rw [List.length_drop, hblen]
              omega
            have hpre3 : blankTok <+: (jp ++ [' ']).drop i := by
              rw [List.prefix_iff_eq_take] at hpre2 ⊢
              rwa [List.take_append_of_le_length hlen2] at hpre2
            have hinf : blankTok <:+: jp ++ [' '] :=
              hpre3.isInfix.trans (List.drop_suffix i _).isInfix
            rcases space_split_of_isInfix hbsp hbne hinf with hc | hc
            · exact hjp hc
            · exact hbne (List.eq_nil_of_infix_nil hc)
          · have hji : i ≤ jp.length := by omega
            have hchar := getElem_of_isPrefixOf_drop hpre (jp.length - i)
              (by rw [hblen]; omega)
            rw [Nat.add_sub_cancel' hji] at hchar
            have hsp2 : l[jp.length]? = some ' ' := by
              rw [hl, List.append_assoc,
                List.getElem?_append_left (by omega : jp.length < (jp ++ [' ']).length),
                List.getElem?_append_right (le_refl jp.length), Nat.sub_self]
              rfl
            rw [hsp2] at hchar
            exact hbsp (List.getElem?_mem hchar.symm)
      · have hgt : P.length < i := lt_of_le_of_ne hge (Ne.symm hne2)
        rcases le_or_lt (i - P.length) 6 with hd6 | hd7
        · have hchar := getElem_of_isPrefixOf_drop hpre (6 - (i - P.length))
            (by rw [hblen]; omega)
          have hidx : i + (6 - (i - P.length)) = P.length + 6 := by omega
          rw [hidx] at hchar
          have hr : l[P.length + 6]? = some ']' := by
            rw [hl, List.append_assoc,
              List.getElem?_append_right (by omega : P.length ≤ P.length + 6)]
            have h6 : P.length + 6 - P.length = 6 := by omega
            rw [h6, List.getElem?_append_left (by rw [hblen]; omega)]
            rfl
          rw [hr] at hchar
          have hmem : ']' ∈ blankTok.take 6 := by
            apply List.getElem?_mem
            rw [List.getElem?_take, if_pos (by omega : 6 - (i - P.length) < 6)]
            exact hchar.symm
          exact absurd hmem (by decide)
        · have hdrop : l.drop i = S.drop (i - P.length - 7) := by
            rw [hl, List.drop_append_eq_append_drop]
            have h1 : (P ++ blankTok).drop i = [] :=
              List.drop_eq_nil_of_le (by rw [List.length_append, hblen]; omega)
            have h2 : i - (P ++ blankTok).length = i - P.length - 7 := by
              rw [List.length_append, hblen]; omega
            rw [h1, h2, List.nil_append]
          rw [hdrop] at hpre
          have hinf : blankTok <:+: S :=
            (isPrefixOf_eq_true.mp hpre).isInfix.trans
              (List.drop_suffix _ S).isInfix
          rcases hS with rfl | ⟨js, rfl, hjs⟩
          · exact hbne (List.eq_nil_of_infix_nil hinf)
          · have hsplit2 : blankTok <:+: ([] : PyStr) ∨ blankTok <:+: js := by
              apply space_split_of_isInfix hbsp hbne
              simpa using hinf
            rcases hsplit2 with hc | hc
            · exact hbne (List.eq_nil_of_infix_nil hc)
            · exact hjs hc
    · rintro rfl
      have hdrop : l.drop P.length = blankTok ++ S := by
        rw [hl, List.append_assoc]
        exact List.drop_left P (blankTok ++ S)
      rw [hdrop]
      exact isPrefixOf_eq_true.mpr (List.prefix_append blankTok S)
  rw [occCount, range_filter_eq_single hkP hkey]
  rfl

theorem occCount_joinWords_parts (pw sw : List PyStr)
    (hpw : ∀ w ∈ pw, ¬ blankTok <:+: w) (hsw : ∀ w ∈ sw, ¬ blankTok <:+: w) :
    occCount blankTok (joinWords
      ((if pw.isEmpty then [] else [joinWords pw]) ++ [blankTok] ++
        (if sw.isEmpty then [] else [joinWords sw]))) = 1 := by
  have hbsp : ' ' ∉ blankTok := by decide
  have hbne : blankTok ≠ [] := by decide
  have hjp : ¬ blankTok <:+: joinWords pw := by
    intro hc
    rcases isInfix_joinWords hbsp hbne hc with ⟨w, hw, hwp⟩
    exact hpw w hw hwp
  have hjs : ¬ blankTok <:+: joinWords sw := by
    intro hc
    rcases isInfix_joinWords hbsp hbne hc with ⟨w, hw, hwp⟩
    exact hsw w hw hwp
  by_cases hpe : pw.isEmpty <;> by_cases hse : sw.isEmpty
  · rw [if_pos hpe, if_pos hse]
    have h2 := occCount_one [] [] (Or.inl rfl) (Or.inl rfl)
    simpa using h2
  · rw [if_pos hpe, if_neg hse]
    have heq : joinWords ([] ++ [blankTok] ++ [joinWords sw]) =
        blankTok ++ ' ' :: joinWords sw := rfl
    rw [heq]
    have h2 := occCount_one [] (' ' :: joinWords sw) (Or.inl rfl)
      (Or.inr ⟨joinWords sw, rfl, hjs⟩)
    simpa using h2
  · rw [if_neg hpe, if_pos hse]
    have heq : joinWords ([joinWords pw] ++ [blankTok] ++ []) =
        joinWords pw ++ ' ' :: blankTok := rfl
    rw [heq]
    have h2 := occCount_one (joinWords pw ++ [' ']) []
      (Or.inr ⟨joinWords pw, rfl, hjp⟩) (Or.inl rfl)
    have heq2 : (joinWords pw ++ [' ']) ++ blankTok ++ [] =
        joinWords pw ++ ' ' :: blankTok := by simp
    rwa [heq2] at h2
  · rw [if_neg hpe, if_neg hse]
    have heq : joinWords ([joinWords pw] ++ [blankTok] ++ [joinWords sw]) =
        joinWords pw ++ ' ' :: (blankTok ++ ' ' :: joinWords sw) := rfl
    rw [heq]
    have h2 := occCount_one (joinWords pw ++ [' ']) (' ' :: joinWords sw)
      (Or.inr ⟨joinWords pw, rfl, hjp⟩) (Or.inr ⟨joinWords sw, rfl, hjs⟩)
    have heq2 : (joinWords pw ++ [' ']) ++ blankTok ++ (' ' :: joinWords sw) =
        joinWords pw ++ ' ' :: (blankTok ++ ' ' :: joinWords sw) := by simp
    rwa [heq2] at h2

/- ═════════════════════════════════════════════════════════════════════════
   Claim C10 — the wildcard invariant of generalize_strings
   ═══════════════════════════════════════════════════════════════════════ -/

/-- Claim C10: if no input string contains the token `[blank]`, then
`generalize_strings` produces exactly one occurrence of `[blank]` whenever at
least two inputs are non-blank and not all identical, and no occurrence at
all when the non-blank inputs are all identical or fewer than two. -/
theorem generalize_strings_wildcard_invariant (xs : List PyStr)
    (hnb : ∀ s ∈ xs, containsTok blankTok s = false) :
    (∀ s t rest, xs.filter isNonBlank = s :: t :: rest →
      (t :: rest).all (fun y => decide (y = s)) = false →
      occCount blankTok (generalize_strings xs) = 1) ∧
    (∀ s t rest, xs.filter isNonBlank = s :: t :: rest →
      (t :: rest).all (fun y => decide (y = s)) = true →
      occCount blankTok (generalize_strings xs) = 0) ∧
    ((xs.filter isNonBlank).length < 2 →
      occCount blankTok (generalize_strings xs) = 0) := by
  refine ⟨?_, ?_, ?_⟩
  · intro s t rest h hall
    have hs_in : s ∈ xs := by
      have hmem : s ∈ xs.filter isNonBlank := by
        rw [h]; exact List.mem_cons_self _ _
      exact (List.mem_filter.mp hmem).1
    have hws : ∀ w ∈ pySplitWords s, ¬ blankTok <:+: w := by
      intro w hw hc
      have hinf : blankTok <:+: s := hc.trans (pySplitWords_mem_isInfix hw)
      have h1 := hnb s hs_in
      rw [containsTok_eq_true_iff.mpr hinf] at h1
      simp at h1
    simp only [generalize_strings, h]
    rw [if_neg (by simp [hall])]
    apply occCount_joinWords_parts
    · intro w hw
      exact hws w (List.take_subset _ _ hw)
    · intro w hw
      split at hw
      · exact hws w (List.drop_subset _ _ hw)
      · simp at hw
  · intro s t rest h hall
    have hs_in : s ∈ xs := by
      have hmem : s ∈ xs.filter isNonBlank := by
        rw [h]; exact List.mem_cons_self _ _
      exact (List.mem_filter.mp hmem).1
    simp only [generalize_strings, h]
    rw [if_pos hall]
    exact occCount_eq_zero_of_not_contains (hnb s hs_in)
  · intro hlen2
    cases hf : xs.filter isNonBlank with
    | nil =>
      simp only [generalize_strings, hf]
      rfl
    | cons a tail =>
      cases tail with
      | nil =>
        simp only [generalize_strings, hf]
        have ha_in : a ∈ xs := by
          have hmem : a ∈ xs.filter isNonBlank := by
            rw [hf]; exact List.mem_cons_self _ _
          exact (List.mem_filter.mp hmem).1
        exact occCount_eq_zero_of_not_contains (hnb a ha_in)
      | cons b tail2 =>
        rw [hf] at hlen2
        simp [List.length_cons] at hlen2
        omega

/-- Witness for C10 at a concrete input: two non-blank, non-identical titles
sharing first and last word generalise to a template with exactly one
`[blank]`. -/
theorem generalize_strings_wildcard_invariant_witness :
    (∀ s ∈ [toL "a x c", toL "a y c"], containsTok blankTok s = false) ∧
    occCount blankTok (generalize_strings [toL "a x c", toL "a y c"]) = 1 :=
  ⟨by decide,
    (generalize_strings_wildcard_invariant [toL "a x c", toL "a y c"] (by decide)).1
      (toL "a x c") (toL "a y c") [] (by decide) (by decide)⟩
